import Mathlib

/-!
Verification development for the cache/merge/sequencer core of a key/value
persistence layer (react-native-onyx).

The development shallowly embeds:
* `lib/fastMerge.ts` — `isMergeableObject`, `arrayMerge` and `fastMerge`
  (the deep-merge engine; the `deepmerge` npm dependency it delegates to is
  not part of this repository's sources and is modelled from the spec);
* the `OnyxCache` class — storage keys, recent-keys ordering, cached value
  map, pending-task records, `set`/`drop`/`merge`/`getValue`/`captureTask`/
  `removeLeastRecentlyUsedKeys`;
* `lib/SyncQueue.ts` — `push`/`process`/`abort` and the single-threaded
  event-loop semantics of its promise chain.

JavaScript runtime values are modelled by the mutually inductive type `JVal`
(`JFields` models the ordered own-enumerable fields of a plain object,
`JList` the elements of an array).  JavaScript objects cannot carry two own
fields with the same key; where a proof needs that fact it appears as an
explicit `uniqKeysF`/`wfB` hypothesis.
-/

set_option maxHeartbeats 1000000

namespace Onyx

mutual

/-- A JavaScript runtime value: `null`, primitives, `Date` and `RegExp`
objects (kept abstract: a timestamp / pattern string), arrays and plain
objects. `undefined` is represented by absence (an `Option`/missing field),
matching how the cache treats it. -/
inductive JVal where
  | null
  | boolV (b : Bool)
  | numV (n : Int)
  | strV (s : String)
  | dateV (t : Int)
  | regexpV (p : String)
  | arr (xs : JList)
  | obj (fs : JFields)

/-- Elements of a JavaScript array. -/
inductive JList where
  | nil
  | cons (v : JVal) (rest : JList)

/-- Ordered own-enumerable fields of a JavaScript object. -/
inductive JFields where
  | nil
  | cons (k : String) (v : JVal) (rest : JFields)

end

namespace JFields

/-- `key in target` for a plain object. -/
def hasKey : JFields → String → Bool
  | .nil, _ => false
  | .cons k _ rest, key => k == key || rest.hasKey key

/-- `target[key]` for a plain object (first field with the key; a real JS
object has at most one). -/
def lookup : JFields → String → Option JVal
  | .nil, _ => none
  | .cons k v rest, key => if k == key then some v else rest.lookup key

/-- Overwrite the value of every field named `key` (a JS object has one). -/
def replace : JFields → String → JVal → JFields
  | .nil, _, _ => .nil
  | .cons k v rest, key, value =>
      if k == key then .cons k value (replace rest key value)
      else .cons k v (replace rest key value)

/-- List append on field lists. -/
def append : JFields → JFields → JFields
  | .nil, gs => gs
  | .cons k v rest, gs => .cons k v (append rest gs)

/-- `destination[key] = value`: JavaScript property assignment keeps the
position of an existing key and appends a fresh key at the end. -/
def set (fs : JFields) (key : String) (value : JVal) : JFields :=
  if fs.hasKey key then fs.replace key value
  else fs.append (.cons key value .nil)

/-- `Object.keys` of a plain object. -/
def keys : JFields → List String
  | .nil => []
  | .cons k _ rest => k :: rest.keys

/-- Remove every field named `key` (JS `delete target[key]`). -/
def eraseKey : JFields → String → JFields
  | .nil, _ => .nil
  | .cons k v rest, key =>
      if k == key then eraseKey rest key
      else .cons k v (eraseKey rest key)

/-- No two fields share a key (always true of a real JS object). -/
def uniqKeys : JFields → Bool
  | .nil => true
  | .cons k _ rest => !rest.hasKey k && rest.uniqKeys

/-- The fields of `fs` whose key is not a key of `other`. -/
def notIn : JFields → JFields → JFields
  | .nil, _ => .nil
  | .cons k v rest, other =>
      if other.hasKey k then notIn rest other
      else .cons k v (notIn rest other)

end JFields

/-- `Array.isArray`. -/
def jsIsArray : JVal → Bool
  | .arr _ => true
  | _ => false

/-- A plain mapping (a JS object that is not an array, not a `Date`, not a
`RegExp`). -/
def isPlainObj : JVal → Bool
  | .obj _ => true
  | _ => false

/-- From `lib/fastMerge.ts`: value is a non-null `object` whose
`Object.prototype.toString` tag is neither `[object RegExp]` nor
`[object Date]`.  Arrays and plain objects qualify; `null`, primitives,
dates and regexps do not. -/
def isMergeableObject : JVal → Bool
  | .arr _ => true
  | .obj _ => true
  | _ => false

/-- From `lib/fastMerge.ts`: the `arrayMerge` option handed to `deepmerge`
discards the destination array and returns the source array wholesale. -/
def arrayMerge (_destinationArray sourceArray : JList) : JList :=
  sourceArray

mutual

/-- Modelled from the spec: `fastMerge` delegates to the `deepmerge` npm
dependency (with the repository's `isMergeableObject` and `arrayMerge`
options), whose code is not among this repository's sources.  §4.1 of the
spec gives its contract: a patch that is not a plain mapping (primitive,
array, `Date`, `RegExp`) is returned verbatim — with both sides arrays the
repository's `arrayMerge` picks the source array; when both sides are plain
mappings the fields are merged key by key by `mergeGo`. -/
def fastMerge (base patch : JVal) : JVal :=
  match base, patch with
  | .arr ys, .arr xs => .arr (arrayMerge ys xs)
  | _, .arr xs => .arr xs
  | .obj bf, .obj pf => .obj (mergeGo bf bf pf)
  | _, .obj pf => .obj pf
  | _, p => p

/-- Modelled from the spec (see `fastMerge`): walk the patch fields in
order, assigning each into the destination; a key present on the base whose
patch value is mergeable is merged recursively against the base's value,
any other patch value wins verbatim.  `bf` stays the original base object,
`dest` is the destination being built (it starts as a copy of the base). -/
def mergeGo (bf dest : JFields) : JFields → JFields
  | .nil => dest
  | .cons k v rest =>
      match bf.lookup k with
      | some bv =>
          if isMergeableObject v then mergeGo bf (dest.set k (fastMerge bv v)) rest
          else mergeGo bf (dest.set k v) rest
      | none => mergeGo bf (dest.set k v) rest

end

mutual

/-- Arrays are absent everywhere inside the value (the hypothesis of the
spec's recursive-union law for `merge`). -/
def arrayFree : JVal → Bool
  | .arr _ => false
  | .obj fs => arrayFreeF fs
  | _ => true

/-- `arrayFree` on the fields of an object. -/
def arrayFreeF : JFields → Bool
  | .nil => true
  | .cons _ v rest => arrayFree v && arrayFreeF rest

end

mutual

/-- Well-formed as a JavaScript value: every object, at every depth, has
pairwise-distinct field keys (a real JS object cannot do otherwise). -/
def wfB : JVal → Bool
  | .obj fs => fs.uniqKeys && wfFields fs
  | .arr xs => wfList xs
  | _ => true

/-- `wfB` on every value of a field list. -/
def wfFields : JFields → Bool
  | .nil => true
  | .cons _ v rest => wfB v && wfFields rest

/-- `wfB` on every element of an array. -/
def wfList : JList → Bool
  | .nil => true
  | .cons v rest => wfB v && wfList rest

end

mutual

/-- The spec's own words for the deep-merge contract (§4.1, §8): "merge
recursively key-by-key: for each key present in `patch`, if both
`base[key]` and `patch[key]` are plain mappings, recurse; otherwise the
patch value wins; keys only in `base` are preserved", and a patch that is
not a plain mapping is returned verbatim.  Stated independently of
`fastMerge` so that the two can be compared. -/
def mergeSpec (base patch : JVal) : JVal :=
  match base, patch with
  | .obj bf, .obj pf => .obj ((unionGo bf pf).append (pf.notIn bf))
  | _, p => p

/-- The recursive key union underlying `mergeSpec`: base fields in order,
each overridden by the patch where the patch has the key (recursing when
both values are plain mappings, otherwise the patch value wins). -/
def unionGo : JFields → JFields → JFields
  | .nil, _ => .nil
  | .cons k bv rest, pf =>
      match pf.lookup k with
      | some pv =>
          .cons k (if isPlainObj bv && isPlainObj pv then mergeSpec bv pv else pv)
            (unionGo rest pf)
      | none => .cons k bv (unionGo rest pf)

end

/-- `fastMerge bv v` for a value the repository's `isMergeableObject`
rejects is `v` itself, so `mergeGo`'s two assignment branches agree. -/
def resolveV (bf : JFields) (k : String) (pv : JVal) : JVal :=
  match bf.lookup k with
  | some bv => fastMerge bv pv
  | none => pv

/-- `resolveV` applied to every field of a list. -/
def resolveNew (bf : JFields) : JFields → JFields
  | .nil => .nil
  | .cons k v rest => .cons k (resolveV bf k v) (resolveNew bf rest)

/-- One pass of the merge over an already-built destination: fields keyed in
`pf` are overridden by the resolved patch value, the rest kept. -/
def updFields (bf pf : JFields) : JFields → JFields
  | .nil => .nil
  | .cons k dv rest =>
      match pf.lookup k with
      | some pv => .cons k (resolveV bf k pv) (updFields bf pf rest)
      | none => .cons k dv (updFields bf pf rest)

/-- `(k, v)` is one of the fields of the list. -/
def entryIn : JFields → String → JVal → Prop
  | .nil, _, _ => False
  | .cons k v rest, k', v' => (k = k' ∧ v = v') ∨ entryIn rest k' v'

/-- Structural induction for `JFields` alone (the mutual eliminator of the
`JVal` family has several motives, which the `induction` tactic rejects). -/
theorem JFields.inductionOn {motive : JFields → Prop} (fs : JFields)
    (nil : motive .nil)
    (cons : ∀ k v rest, motive rest → motive (.cons k v rest)) : motive fs :=
  match fs with
  | .nil => nil
  | .cons k v rest => cons k v rest (inductionOn rest nil cons)

/-- Structural induction for `JList` alone. -/
theorem JList.inductionOnList {motive : JList → Prop} (xs : JList)
    (nil : motive .nil)
    (cons : ∀ v rest, motive rest → motive (.cons v rest)) : motive xs :=
  match xs with
  | .nil => nil
  | .cons v rest => cons v rest (inductionOnList rest nil cons)

namespace JFields

@[simp] theorem append_nil (fs : JFields) : fs.append .nil = fs := by
  induction fs using JFields.inductionOn with
  | nil => rfl
  | cons k v rest ih => simp [append, ih]

theorem append_assoc (a b c : JFields) :
    (a.append b).append c = a.append (b.append c) := by
  induction a using JFields.inductionOn with
  | nil => rfl
  | cons k v rest ih => simp [append, ih]

@[simp] theorem hasKey_append (a b : JFields) (k : String) :
    (a.append b).hasKey k = (a.hasKey k || b.hasKey k) := by
  induction a using JFields.inductionOn with
  | nil => simp [append, hasKey]
  | cons k' v rest ih => simp [append, hasKey, ih, Bool.or_assoc]

@[simp] theorem hasKey_replace (fs : JFields) (k k' : String) (v : JVal) :
    (fs.replace k v).hasKey k' = fs.hasKey k' := by
  induction fs using JFields.inductionOn with
  | nil => rfl
  | cons k'' v'' rest ih =>
      by_cases h : k'' = k <;> simp [replace, hasKey, h, ih]

theorem hasKey_eq_isSome_lookup (fs : JFields) (k : String) :
    fs.hasKey k = (fs.lookup k).isSome := by
  induction fs using JFields.inductionOn with
  | nil => rfl
  | cons k' v rest ih =>
      by_cases h : k' = k <;> simp [hasKey, lookup, h, ih]

theorem lookup_append (a b : JFields) (k : String) :
    (a.append b).lookup k =
      match a.lookup k with
      | some v => some v
      | none => b.lookup k := by
  induction a using JFields.inductionOn with
  | nil => simp [append, lookup]
  | cons k' v rest ih =>
      by_cases h : k' = k <;> simp [append, lookup, h, ih]

theorem lookup_replace_self (fs : JFields) (k : String) (v : JVal)
    (h : fs.hasKey k = true) : (fs.replace k v).lookup k = some v := by
  induction fs using JFields.inductionOn with
  | nil => simp [hasKey] at h
  | cons k' v' rest ih =>
      by_cases hk : k' = k
      · simp [replace, lookup, hk]
      · simp [hasKey, hk] at h
        simp [replace, lookup, hk, ih h]

theorem lookup_replace_ne (fs : JFields) (k k' : String) (v : JVal)
    (h : k' ≠ k) : (fs.replace k v).lookup k' = fs.lookup k' := by
  have hkk' : ¬ (k = k') := fun hh => h hh.symm
  induction fs using JFields.inductionOn with
  | nil => rfl
  | cons k'' v'' rest ih =>
      by_cases hk : k'' = k
      · subst hk
        simp [replace, lookup, hkk', ih]
      · by_cases hk' : k'' = k'
        · subst hk'
          simp [replace, lookup, hk, ih]
        · simp [replace, lookup, hk, hk', ih]

@[simp] theorem lookup_set_self (fs : JFields) (k : String) (v : JVal) :
    (fs.set k v).lookup k = some v := by
  unfold set
  by_cases h : fs.hasKey k = true
  · rw [if_pos h]
    exact lookup_replace_self fs k v h
  · rw [if_neg h, lookup_append]
    rw [hasKey_eq_isSome_lookup] at h
    cases hl : fs.lookup k with
    | none => simp [lookup]
    | some v' => rw [hl] at h; simp at h

theorem lookup_set_ne (fs : JFields) (k k' : String) (v : JVal)
    (h : k' ≠ k) : (fs.set k v).lookup k' = fs.lookup k' := by
  unfold set
  by_cases hk : fs.hasKey k = true
  · rw [if_pos hk]
    exact lookup_replace_ne fs k k' v h
  · rw [if_neg hk, lookup_append]
    cases hl : fs.lookup k' with
    | none =>
        simp [lookup]
        exact fun hh => h hh.symm
    | some v' => simp

@[simp] theorem hasKey_set (fs : JFields) (k k' : String) (v : JVal) :
    (fs.set k v).hasKey k' = (fs.hasKey k' || (k == k')) := by
  by_cases h : k' = k
  · subst h
    rw [hasKey_eq_isSome_lookup, lookup_set_self]
    simp
  · rw [hasKey_eq_isSome_lookup, lookup_set_ne fs k k' v h,
      ← hasKey_eq_isSome_lookup]
    have : (k == k') = false := by
      simp
      exact fun hh => h hh.symm
    simp [this]

@[simp] theorem lookup_eraseKey_self (fs : JFields) (k : String) :
    (fs.eraseKey k).lookup k = none := by
  induction fs using JFields.inductionOn with
  | nil => rfl
  | cons k' v rest ih =>
      by_cases h : k' = k <;> simp [eraseKey, lookup, h, ih]

theorem lookup_eraseKey_ne (fs : JFields) (k k' : String) (h : k' ≠ k) :
    (fs.eraseKey k).lookup k' = fs.lookup k' := by
  have hkk' : ¬ (k = k') := fun hh => h hh.symm
  induction fs using JFields.inductionOn with
  | nil => rfl
  | cons k'' v rest ih =>
      by_cases hk : k'' = k
      · subst hk
        simp [eraseKey, lookup, hkk', ih]
      · by_cases hk' : k'' = k'
        · subst hk'
          simp [eraseKey, lookup, hk, ih]
        · simp [eraseKey, lookup, hk, hk', ih]

theorem mem_keys_iff_hasKey (fs : JFields) (k : String) :
    k ∈ fs.keys ↔ fs.hasKey k = true := by
  induction fs using JFields.inductionOn with
  | nil => simp [keys, hasKey]
  | cons k' v rest ih =>
      simp only [keys, List.mem_cons, hasKey, Bool.or_eq_true, beq_iff_eq, ih]
      constructor
      · rintro (h | h)
        · exact Or.inl h.symm
        · exact Or.inr h
      · rintro (h | h)
        · exact Or.inl h.symm
        · exact Or.inr h

theorem lookup_eq_none_of_hasKey_false (fs : JFields) (k : String)
    (h : fs.hasKey k = false) : fs.lookup k = none := by
  rw [hasKey_eq_isSome_lookup] at h
  cases hl : fs.lookup k with
  | none => rfl
  | some v => rw [hl] at h; simp at h

end JFields

/-- A value the repository's `isMergeableObject` rejects is taken verbatim
by the merge, so `mergeGo`'s two assignment branches assign the same value. -/
theorem fastMerge_nonmergeable (bv v : JVal) (h : isMergeableObject v = false) :
    fastMerge bv v = v := by
  cases bv <;> cases v <;> first | rfl | (simp [isMergeableObject] at h)

/-- When base value and patch value are not both plain objects, the merge
returns the patch value. -/
theorem fastMerge_not_both_plain (bv pv : JVal)
    (h : (isPlainObj bv && isPlainObj pv) = false) : fastMerge bv pv = pv := by
  cases bv <;> cases pv <;> first | rfl | (simp [isPlainObj] at h)

/-- The two assignment branches of `mergeGo` collapse to `resolveV`. -/
theorem mergeGo_cons (bf dest : JFields) (k : String) (v : JVal) (rest : JFields) :
    mergeGo bf dest (.cons k v rest) =
      mergeGo bf (dest.set k (resolveV bf k v)) rest := by
  cases h : bf.lookup k with
  | none => simp only [mergeGo, resolveV, h]
  | some bv =>
      by_cases hm : isMergeableObject v = true
      · simp only [mergeGo, resolveV, h, hm, if_true]
      · have hm' : isMergeableObject v = false := by simpa using hm
        simp only [mergeGo, resolveV, h, hm', Bool.false_eq_true, if_false,
          fastMerge_nonmergeable bv v hm']

theorem updFields_nil_patch (bf dest : JFields) : updFields bf .nil dest = dest := by
  induction dest using JFields.inductionOn with
  | nil => rfl
  | cons k dv rest ih => simp [updFields, JFields.lookup, ih]

theorem updFields_append (bf pf a b : JFields) :
    updFields bf pf (a.append b) = (updFields bf pf a).append (updFields bf pf b) := by
  induction a using JFields.inductionOn with
  | nil => rfl
  | cons k dv rest ih =>
      simp only [JFields.append, updFields]
      cases pf.lookup k <;> simp [JFields.append, ih]

/-- Dropping a patch head whose key the destination does not carry does not
change the override pass over the destination. -/
theorem updFields_cons_patch_notkey (bf pf dest : JFields) (k : String) (v : JVal)
    (h : dest.hasKey k = false) :
    updFields bf (.cons k v pf) dest = updFields bf pf dest := by
  induction dest using JFields.inductionOn with
  | nil => rfl
  | cons k' dv rest ih =>
      rw [JFields.hasKey] at h
      cases hkk : (k' == k) with
      | true => rw [hkk] at h; simp at h
      | false =>
          rw [hkk] at h
          simp only [Bool.false_or] at h
          have hkne : (k == k') = false := by
            simp only [beq_eq_false_iff_ne] at hkk ⊢
            exact fun hh => hkk hh.symm
          simp only [updFields, JFields.lookup, hkne, if_neg]
          cases pf.lookup k' <;> simp [ih h]

/-- Replacing key `k` of the destination by the resolved patch value and
then overriding with the remaining patch equals overriding with the patch
headed by `(k, v)`, provided the remaining patch does not carry `k`. -/
theorem updFields_replace_absorb (bf pf dest : JFields) (k : String) (v : JVal)
    (hpf : pf.hasKey k = false) :
    updFields bf pf (dest.replace k (resolveV bf k v)) =
      updFields bf (.cons k v pf) dest := by
  have hlk : pf.lookup k = none := JFields.lookup_eq_none_of_hasKey_false pf k hpf
  induction dest using JFields.inductionOn with
  | nil => rfl
  | cons k' dv rest ih =>
      by_cases hk : k' = k
      · subst hk
        simp [JFields.replace, updFields, JFields.lookup, hlk, ih]
      · have hkk : (k' == k) = false := by
          simp only [beq_eq_false_iff_ne]; exact hk
        have hkk' : (k == k') = false := by
          simp only [beq_eq_false_iff_ne]; exact fun hh => hk hh.symm
        simp only [JFields.replace, hkk, Bool.false_eq_true, if_false, updFields,
          JFields.lookup, hkk', ih]

/-- Replacing a key's value in the destination does not change which patch
fields count as new. -/
theorem notIn_replace (pf dest : JFields) (k : String) (w : JVal) :
    pf.notIn (dest.replace k w) = pf.notIn dest := by
  induction pf using JFields.inductionOn with
  | nil => rfl
  | cons k' v rest ih => simp [JFields.notIn, JFields.hasKey_replace, ih]

/-- Appending a key the patch tail does not carry does not change which of
its fields count as new. -/
theorem notIn_append_singleton (pf dest : JFields) (k : String) (w : JVal)
    (hpf : pf.hasKey k = false) :
    pf.notIn (dest.append (.cons k w .nil)) = pf.notIn dest := by
  induction pf using JFields.inductionOn with
  | nil => rfl
  | cons k' v rest ih =>
      rw [JFields.hasKey] at hpf
      cases hkk : (k' == k) with
      | true => rw [hkk] at hpf; simp at hpf
      | false =>
          rw [hkk] at hpf
          simp only [Bool.false_or] at hpf
          have hkne : (k == k') = false := by
            simp only [beq_eq_false_iff_ne] at hkk ⊢
            exact fun hh => hkk hh.symm
          simp [JFields.notIn, JFields.hasKey_append, JFields.hasKey, hkne, ih hpf]

/-- Fields that are new relative to the base resolve to themselves. -/
theorem resolveNew_notIn_self (bf pf : JFields) :
    resolveNew bf (pf.notIn bf) = pf.notIn bf := by
  induction pf using JFields.inductionOn with
  | nil => rfl
  | cons k v rest ih =>
      by_cases h : bf.hasKey k = true
      · simp [JFields.notIn, h, ih]
      · have h' : bf.hasKey k = false := by simpa using h
        have hl : bf.lookup k = none := JFields.lookup_eq_none_of_hasKey_false _ _ h'
        simp [JFields.notIn, h', resolveNew, resolveV, hl, ih]

/-- Closed form of `mergeGo`: the destination with patched keys overridden,
followed by the patch fields whose keys the destination does not carry. -/
theorem mergeGo_closed (bf : JFields) :
    ∀ (pf : JFields), pf.uniqKeys = true →
      ∀ dest, mergeGo bf dest pf =
        (updFields bf pf dest).append (resolveNew bf (pf.notIn dest)) := by
  intro pf
  induction pf using JFields.inductionOn with
  | nil =>
      intro _ dest
      simp [mergeGo, updFields_nil_patch, JFields.notIn, resolveNew]
  | cons k v rest ih =>
      intro hu dest
      simp only [JFields.uniqKeys, Bool.and_eq_true, Bool.not_eq_true'] at hu
      obtain ⟨hk, hu'⟩ := hu
      rw [mergeGo_cons]
      unfold JFields.set
      by_cases hd : dest.hasKey k = true
      · rw [if_pos hd, ih hu' (dest.replace k (resolveV bf k v))]
        rw [updFields_replace_absorb bf rest dest k v hk, notIn_replace]
        simp [JFields.notIn, hd]
      · rw [if_neg hd, ih hu' (dest.append (.cons k (resolveV bf k v) .nil))]
        have hd' : dest.hasKey k = false := by simpa using hd
        rw [updFields_append, notIn_append_singleton rest dest k _ hk,
          updFields_cons_patch_notkey bf rest dest k v hd']
        have hrl : rest.lookup k = none :=
          JFields.lookup_eq_none_of_hasKey_false rest k hk
        rw [JFields.append_assoc]
        simp [JFields.notIn, hd', resolveNew, updFields, hrl, JFields.lookup,
          JFields.append]

theorem entryIn_hasKey (fs : JFields) (k : String) (v : JVal)
    (h : entryIn fs k v) : fs.hasKey k = true := by
  induction fs using JFields.inductionOn with
  | nil => exact absurd h (by simp [entryIn])
  | cons k' v' rest ih =>
      rcases h with ⟨hk, _⟩ | h
      · subst hk; simp [JFields.hasKey]
      · simp [JFields.hasKey, ih h]

theorem lookup_entryIn (fs : JFields) (k : String) (v : JVal)
    (h : fs.lookup k = some v) : entryIn fs k v := by
  induction fs using JFields.inductionOn with
  | nil => simp [JFields.lookup] at h
  | cons k' v' rest ih =>
      rw [JFields.lookup] at h
      by_cases hk : k' = k
      · rw [if_pos (by simpa using hk)] at h
        exact Or.inl ⟨hk, by injection h⟩
      · rw [if_neg (by simpa using hk)] at h
        exact Or.inr (ih h)

theorem entryIn_lookup_of_uniq (fs : JFields) (k : String) (v : JVal)
    (hu : fs.uniqKeys = true) (h : entryIn fs k v) : fs.lookup k = some v := by
  induction fs using JFields.inductionOn with
  | nil => exact absurd h (by simp [entryIn])
  | cons k' v' rest ih =>
      simp only [JFields.uniqKeys, Bool.and_eq_true, Bool.not_eq_true'] at hu
      obtain ⟨hk', hu'⟩ := hu
      rcases h with ⟨hk, hv⟩ | h
      · subst hk; subst hv; simp [JFields.lookup]
      · have hne : ¬ (k' = k) := by
          intro hh; subst hh
          exact absurd (entryIn_hasKey rest k' v h) (by simp [hk'])
        simp only [JFields.lookup, beq_iff_eq, if_neg hne]
        exact ih hu' h

theorem entryIn_sizeOf (fs : JFields) (k : String) (v : JVal) (h : entryIn fs k v) :
    sizeOf v < sizeOf fs := by
  induction fs using JFields.inductionOn with
  | nil => exact absurd h (by simp [entryIn])
  | cons k' v' rest ih =>
      rcases h with ⟨_, hv⟩ | h
      · subst hv; simp; omega
      · have := ih h
        simp; omega

theorem wfFields_entry (fs : JFields) (k : String) (v : JVal)
    (hw : wfFields fs = true) (h : entryIn fs k v) : wfB v = true := by
  induction fs using JFields.inductionOn with
  | nil => exact absurd h (by simp [entryIn])
  | cons k' v' rest ih =>
      simp only [wfFields, Bool.and_eq_true] at hw
      rcases h with ⟨_, hv⟩ | h
      · subst hv; exact hw.1
      · exact ih hw.2 h

/-- Pointwise, the override pass over the base itself is the spec's
recursive key union, provided the base looks up its own entries and the
recursive merges agree with the spec's choice. -/
theorem updFields_eq_unionGo (bf pf : JFields) :
    ∀ (ds : JFields),
      (∀ k dv, entryIn ds k dv → bf.lookup k = some dv) →
      (∀ k dv pv, entryIn ds k dv → pf.lookup k = some pv →
        fastMerge dv pv =
          (if (isPlainObj dv && isPlainObj pv) = true then mergeSpec dv pv else pv)) →
      updFields bf pf ds = unionGo ds pf := by
  intro ds
  induction ds using JFields.inductionOn with
  | nil => intro _ _; rfl
  | cons k dv rest ih =>
      intro hlk hfm
      have hbk : bf.lookup k = some dv := hlk k dv (Or.inl ⟨rfl, rfl⟩)
      have htail := ih (fun k' dv' h => hlk k' dv' (Or.inr h))
        (fun k' dv' pv' h hp => hfm k' dv' pv' (Or.inr h) hp)
      simp only [updFields, unionGo, resolveV, hbk]
      cases hpk : pf.lookup k with
      | none => dsimp only; rw [htail]
      | some pv =>
          dsimp only
          rw [hfm k dv pv (Or.inl ⟨rfl, rfl⟩) hpk, htail]

theorem fastMerge_eq_mergeSpec_aux :
    ∀ (n : Nat) (a b : JVal), sizeOf a ≤ n → wfB a = true → wfB b = true →
      fastMerge a b = mergeSpec a b := by
  intro n
  induction n with
  | zero =>
      intro a b hsz _ _
      exfalso
      cases a <;> simp at hsz
  | succ n ih =>
      intro a b hsz ha hb
      cases a with
      | null => cases b <;> rfl
      | boolV x => cases b <;> rfl
      | numV x => cases b <;> rfl
      | strV x => cases b <;> rfl
      | dateV x => cases b <;> rfl
      | regexpV x => cases b <;> rfl
      | arr xs => cases b <;> rfl
      | obj bf =>
          cases b with
          | null => rfl
          | boolV x => rfl
          | numV x => rfl
          | strV x => rfl
          | dateV x => rfl
          | regexpV x => rfl
          | arr xs => rfl
          | obj pf =>
              simp only [wfB, Bool.and_eq_true] at ha hb
              have hsz' : sizeOf bf ≤ n := by simp at hsz; omega
              simp only [fastMerge, mergeSpec]
              rw [mergeGo_closed bf pf hb.1 bf, resolveNew_notIn_self]
              have hmain : updFields bf pf bf = unionGo bf pf := by
                apply updFields_eq_unionGo bf pf bf
                · intro k dv h
                  exact entryIn_lookup_of_uniq bf k dv ha.1 h
                · intro k dv pv hin hpk
                  by_cases hplain : (isPlainObj dv && isPlainObj pv) = true
                  · rw [if_pos hplain]
                    have hszdv : sizeOf dv ≤ n := by
                      have := entryIn_sizeOf bf k dv hin
                      omega
                    exact ih dv pv hszdv (wfFields_entry bf k dv ha.2 hin)
                      (wfFields_entry pf k pv hb.2 (lookup_entryIn pf k pv hpk))
                  · rw [if_neg hplain]
                    exact fastMerge_not_both_plain dv pv (by simpa using hplain)
              rw [hmain]

/-- `fastMerge` coincides with the spec's recursive key union on any pair of
well-formed JavaScript values. -/
theorem fastMerge_eq_mergeSpec (a b : JVal) (ha : wfB a = true) (hb : wfB b = true) :
    fastMerge a b = mergeSpec a b :=
  fastMerge_eq_mergeSpec_aux (sizeOf a) a b (le_refl _) ha hb

/-- Lookup characterisation of the merged object: patched keys resolve to
the merged patch value, untouched keys read from the destination. -/
theorem mergeGo_lookup (bf : JFields) :
    ∀ (pf : JFields), pf.uniqKeys = true → ∀ dest k,
      (mergeGo bf dest pf).lookup k =
        (match pf.lookup k with
         | some pv => some (resolveV bf k pv)
         | none => dest.lookup k) := by
  intro pf
  induction pf using JFields.inductionOn with
  | nil => intro _ dest k; simp [mergeGo, JFields.lookup]
  | cons k' v rest ih =>
      intro hu dest k
      simp only [JFields.uniqKeys, Bool.and_eq_true, Bool.not_eq_true'] at hu
      obtain ⟨hk', hu'⟩ := hu
      rw [mergeGo_cons, ih hu']
      by_cases hk : k = k'
      · subst hk
        have hrl : rest.lookup k = none :=
          JFields.lookup_eq_none_of_hasKey_false rest k hk'
        simp [hrl, JFields.lookup]
      · have hne : (k' == k) = false := by
          simp only [beq_eq_false_iff_ne]; exact fun hh => hk hh.symm
        rw [JFields.lookup_set_ne dest k' k _ hk]
        have hcons : (JFields.cons k' v rest).lookup k = rest.lookup k := by
          simp [JFields.lookup, hne]
        rw [hcons]

/-- Keys of the merged object come from the destination or the patch. -/
theorem hasKey_mergeGo (bf : JFields) :
    ∀ (pf dest : JFields) (k : String),
      (mergeGo bf dest pf).hasKey k = true →
      dest.hasKey k = true ∨ pf.hasKey k = true := by
  intro pf
  induction pf using JFields.inductionOn with
  | nil => intro dest k h; exact Or.inl (by simpa [mergeGo] using h)
  | cons k' v rest ih =>
      intro dest k h
      rw [mergeGo_cons] at h
      rcases ih _ k h with h' | h'
      · rw [JFields.hasKey_set] at h'
        rcases (by simpa using h' :
            dest.hasKey k = true ∨ k' = k) with h2 | h2
        · exact Or.inl h2
        · right; simp [JFields.hasKey, h2]
      · right; simp [JFields.hasKey, h']

/-! ## The in-memory cache (`OnyxCache`) -/

/-- underscore's `_.isObject`: non-null values of JS type `object` (or
functions).  Arrays, dates and regexps are objects; `null` and primitives
are not. -/
def underscoreIsObject : JVal → Bool
  | .obj _ => true
  | .arr _ => true
  | .dateV _ => true
  | .regexpV _ => true
  | _ => false

/-- underscore's `_.keys`: the own enumerable keys.  Plain objects expose
their fields; dates and regexps have no own enumerable properties; non-
objects yield an empty list. -/
def underscoreKeys : JVal → List String
  | .obj fs => fs.keys
  | _ => []

/-- The own enumerable fields copied by `Object.assign` from a value into a
fresh object literal. -/
def objectAssignFields : JVal → JFields
  | .obj fs => fs
  | _ => .nil

/-- JS `Set.prototype.add`: appends a string if absent, keeping insertion
order; re-adding an existing element does not move it. -/
def setAdd (s : List String) (k : String) : List String :=
  if s.contains k then s else s ++ [k]

/-- `new Set(list)` for strings: first-occurrence dedup in order. -/
def dedupKeys (l : List String) : List String := l.foldl setAdd []

/-- State of the `OnyxCache` singleton: the known storage keys (a `Set` in
insertion order), the recently-used keys (a `Set`, most recent last), the
cached value map, the pending task records (promises stand for their ids),
and the configured recent-keys limit. -/
structure OnyxCache where
  storageKeys : List String
  recentKeys : List String
  storageMap : JFields
  pendingPromises : List (String × Nat)
  maxRecentKeysSize : Nat

/-- The freshly constructed cache. -/
def emptyCache : OnyxCache :=
  { storageKeys := [], recentKeys := [], storageMap := .nil,
    pendingPromises := [], maxRecentKeysSize := 0 }

/-- `getAllKeys`. -/
def getAllKeys (c : OnyxCache) : List String := c.storageKeys

/-- `addToAccessedKeys`: delete then re-add, so the key ends up at the end
of the recently-used order. -/
def addToAccessedKeys (c : OnyxCache) (key : String) : OnyxCache :=
  { c with recentKeys := (c.recentKeys.filter (fun x => x != key)) ++ [key] }

/-- `getValue`: marks the key as most recently used and returns the cached
value (`none` models JS `undefined` for a missing entry). -/
def getValue (c : OnyxCache) (key : String) : OnyxCache × Option JVal :=
  (addToAccessedKeys c key, c.storageMap.lookup key)

/-- `hasCacheForKey`: the stored value is defined (not `undefined`). -/
def hasCacheForKey (c : OnyxCache) (key : String) : Bool :=
  (c.storageMap.lookup key).isSome

/-- `addKey`. -/
def addKey (c : OnyxCache) (key : String) : OnyxCache :=
  { c with storageKeys := setAdd c.storageKeys key }

/-- `set`: registers the key, marks it recently used, stores the value and
returns it. -/
def cacheSet (c : OnyxCache) (key : String) (value : JVal) : OnyxCache × JVal :=
  let c1 := addKey c key
  let c2 := addToAccessedKeys c1 key
  ({ c2 with storageMap := c2.storageMap.set key value }, value)

/-- `drop`: forget the cached value and both set memberships. -/
def drop (c : OnyxCache) (key : String) : OnyxCache :=
  { c with storageMap := c.storageMap.eraseKey key,
           storageKeys := c.storageKeys.filter (fun x => x != key),
           recentKeys := c.recentKeys.filter (fun x => x != key) }

/-- The message of the error `merge` throws on an invalid patch. -/
def cacheMergeErrMsg : String :=
  "data passed to cache.merge() must be an Object of onyx key/value pairs"

/-- `merge`: reject a patch that is not an object or is an array (before
touching any state), otherwise deep-merge the whole map via `fastMerge`,
rebuild the map with `Object.assign`, extend the known keys with the
patch's keys and mark each patched key as recently used. -/
def cacheMerge (c : OnyxCache) (data : JVal) : Except String OnyxCache :=
  if !(underscoreIsObject data) || jsIsArray data then
    Except.error cacheMergeErrMsg
  else
    let newMap := objectAssignFields (fastMerge (.obj c.storageMap) data)
    let mergedKeys := underscoreKeys data
    let c1 := { c with
      storageMap := newMap,
      storageKeys := dedupKeys (getAllKeys c ++ mergedKeys) }
    Except.ok (mergedKeys.foldl addToAccessedKeys c1)

/-- `hasPendingTask`. -/
def hasPendingTask (c : OnyxCache) (taskName : String) : Bool :=
  (c.pendingPromises.lookup taskName).isSome

/-- `getTaskPromise`. -/
def getTaskPromise (c : OnyxCache) (taskName : String) : Option Nat :=
  c.pendingPromises.lookup taskName

/-- JS `Record` assignment for the pending-promise map: overwrite in place
when the name is present, append otherwise. -/
def assocSet (l : List (String × Nat)) (k : String) (p : Nat) : List (String × Nat) :=
  if l.any (fun q => q.1 == k) then l.map (fun q => if q.1 == k then (q.1, p) else q)
  else l ++ [(k, p)]

/-- `captureTask`: store (the `finally`-chained form of) the promise under
the task name.  The settlement dynamics of the attached cleanup are
modelled separately by `TaskTracker`. -/
def captureTask (c : OnyxCache) (taskName : String) (p : Nat) : OnyxCache :=
  { c with pendingPromises := assocSet c.pendingPromises taskName p }

/-- `array.slice(-n)` for a JS array of strings: the last `n` elements —
except that `slice(-0)` is `slice(0)`, the whole array. -/
def jsSliceLast (l : List String) (n : Nat) : List String :=
  if n = 0 then l else l.drop (l.length - n)

/-- `removeLeastRecentlyUsedKeys`: nothing happens while the recently-used
set is within the limit; otherwise every key of the value map outside the
last `maxRecentKeysSize` recently-used keys is dropped. -/
def removeLeastRecentlyUsedKeys (c : OnyxCache) : OnyxCache :=
  if c.recentKeys.length ≤ c.maxRecentKeysSize then c
  else
    let recentlyAccessed := jsSliceLast c.recentKeys c.maxRecentKeysSize
    let storageKeys := c.storageMap.keys
    let keysToRemove := storageKeys.filter (fun k => !(recentlyAccessed.contains k))
    keysToRemove.foldl drop c

/-- `setRecentKeysLimit`. -/
def setRecentKeysLimit (c : OnyxCache) (limit : Nat) : OnyxCache :=
  { c with maxRecentKeysSize := limit }

/-! ## Settlement dynamics of `captureTask` -/

/-- A `captureTask`/settlement event: `capture name pid` is a call of
`captureTask(name, promise)` with underlying promise `pid`; `settle pid ok`
is that promise settling, fulfilled when `ok`, rejected otherwise (the
`finally` cleanup runs either way). -/
inductive TaskEvent where
  | capture (name : String) (pid : Nat)
  | settle (pid : Nat) (ok : Bool)
  deriving DecidableEq

/-- The pending records together with the cleanup callbacks registered by
`promise.finally` in `captureTask`: every capture registers a callback
that, once its underlying promise settles, deletes the record currently
sitting under its task name. -/
structure TaskTracker where
  pending : List (String × Nat)
  finalizers : List (String × Nat)
  deriving DecidableEq

/-- The tracker before any capture. -/
def taskInit : TaskTracker := { pending := [], finalizers := [] }

/-- One event: a capture assigns the record and registers its cleanup; a
settlement runs every cleanup registered for that promise (fulfilment and
rejection alike), each deleting its task name's record. -/
def taskStep (s : TaskTracker) : TaskEvent → TaskTracker
  | .capture n p =>
      { pending := assocSet s.pending n p,
        finalizers := s.finalizers ++ [(n, p)] }
  | .settle p _ =>
      { s with pending := s.pending.filter (fun q => !(s.finalizers.contains (q.1, p))) }

/-- Run a sequence of capture/settle events from the initial tracker. -/
def runTasks (evs : List TaskEvent) : TaskTracker := evs.foldl taskStep taskInit

/-- At most one record per task name. -/
def recordKeysUnique : List (String × Nat) → Bool
  | [] => true
  | q :: rest => !(rest.any (fun r => r.1 == q.1)) && recordKeysUnique rest

theorem any_filter_imp {α : Type} (l : List α) (f p : α → Bool)
    (h : (l.filter f).any p = true) : l.any p = true := by
  induction l with
  | nil => simp at h
  | cons q rest ih =>
      by_cases hf : f q = true
      · rw [List.filter_cons_of_pos hf] at h
        simp only [List.any_cons, Bool.or_eq_true] at h ⊢
        rcases h with h | h
        · exact Or.inl h
        · exact Or.inr (ih h)
      · rw [List.filter_cons_of_neg (by simpa using hf)] at h
        simp only [List.any_cons, Bool.or_eq_true]
        exact Or.inr (ih h)

theorem recordKeysUnique_filter (l : List (String × Nat)) (f : String × Nat → Bool)
    (h : recordKeysUnique l = true) : recordKeysUnique (l.filter f) = true := by
  induction l with
  | nil => simp [recordKeysUnique]
  | cons q rest ih =>
      simp only [recordKeysUnique, Bool.and_eq_true, Bool.not_eq_true'] at h
      by_cases hf : f q = true
      · rw [List.filter_cons_of_pos hf]
        simp only [recordKeysUnique, Bool.and_eq_true, Bool.not_eq_true']
        refine ⟨?_, ih h.2⟩
        cases hany : (rest.filter f).any (fun r => r.1 == q.1) with
        | false => rfl
        | true => rw [any_filter_imp rest f _ hany] at h; exact absurd h.1 (by simp)
      · rw [List.filter_cons_of_neg (by simpa using hf)]
        exact ih h.2

theorem recordKeysUnique_map_keys (l : List (String × Nat))
    (f : String × Nat → String × Nat) (hf : ∀ q, (f q).1 = q.1)
    (h : recordKeysUnique l = true) : recordKeysUnique (l.map f) = true := by
  induction l with
  | nil => rfl
  | cons q rest ih =>
      simp only [recordKeysUnique, Bool.and_eq_true, Bool.not_eq_true'] at h
      simp only [List.map_cons, recordKeysUnique, Bool.and_eq_true, Bool.not_eq_true']
      refine ⟨?_, ih h.2⟩
      rw [List.any_map]
      have heq : ((fun r : String × Nat => r.1 == (f q).1) ∘ f) =
          (fun r : String × Nat => r.1 == q.1) := by
        funext r
        simp [Function.comp, hf r, hf q]
      rw [heq, h.1]

theorem recordKeysUnique_append_fresh (l : List (String × Nat)) (k : String) (p : Nat)
    (hc : l.any (fun q => q.1 == k) = false)
    (h : recordKeysUnique l = true) :
    recordKeysUnique (l ++ [(k, p)]) = true := by
  induction l with
  | nil => rfl
  | cons q rest ih =>
      have h' : (!(rest.any (fun r => r.1 == q.1)) && recordKeysUnique rest) = true := h
      simp only [Bool.and_eq_true, Bool.not_eq_true'] at h'
      obtain ⟨h1, h2⟩ := h'
      have hc' : ((q.1 == k) || rest.any (fun r => r.1 == k)) = false := hc
      have hc1 : (q.1 == k) = false := by
        cases hm : (q.1 == k) with
        | false => rfl
        | true => rw [hm] at hc'; exact absurd hc' (by simp)
      have hc2 : rest.any (fun r => r.1 == k) = false := by
        cases hm : rest.any (fun r => r.1 == k) with
        | false => rfl
        | true => rw [hm] at hc'; exact absurd hc' (by simp)
      have hsingle : ([((k, p) : String × Nat)].any (fun r => r.1 == q.1)) = false := by
        simp only [List.any_cons, List.any_nil, Bool.or_false]
        simp only [beq_eq_false_iff_ne] at hc1 ⊢
        exact fun hh => hc1 hh.symm
      have hfinal : ((rest ++ [(k, p)]).any (fun r => r.1 == q.1)) = false := by
        rw [List.any_append, h1, hsingle]
        rfl
      have hshape : recordKeysUnique ((q :: rest) ++ [(k, p)]) =
          (!((rest ++ [(k, p)]).any (fun r => r.1 == q.1)) &&
            recordKeysUnique (rest ++ [(k, p)])) := rfl
      rw [hshape, hfinal, ih hc2 h2]
      rfl

theorem recordKeysUnique_assocSet (l : List (String × Nat)) (k : String) (p : Nat)
    (h : recordKeysUnique l = true) : recordKeysUnique (assocSet l k p) = true := by
  unfold assocSet
  by_cases hc : l.any (fun q => q.1 == k) = true
  · rw [if_pos hc]
    apply recordKeysUnique_map_keys l _ _ h
    intro r
    by_cases hr : (r.1 == k) = true <;> simp [hr]
  · rw [if_neg hc]
    simp only [Bool.not_eq_true] at hc
    exact recordKeysUnique_append_fresh l k p hc h

theorem runTasks_pending_unique_from (evs : List TaskEvent) :
    ∀ s : TaskTracker, recordKeysUnique s.pending = true →
      recordKeysUnique (evs.foldl taskStep s).pending = true := by
  induction evs with
  | nil => intro s h; simpa using h
  | cons e rest ih =>
      intro s h
      apply ih
      cases e with
      | capture n p => exact recordKeysUnique_assocSet s.pending n p h
      | settle p ok => exact recordKeysUnique_filter s.pending _ h

theorem finalizers_monotone (evs : List TaskEvent) :
    ∀ (s : TaskTracker) (q : String × Nat), q ∈ s.finalizers →
      q ∈ (evs.foldl taskStep s).finalizers := by
  induction evs with
  | nil => intro s q h; simpa using h
  | cons e rest ih =>
      intro s q h
      apply ih
      cases e with
      | capture n p => simp [taskStep]; exact Or.inl h
      | settle p ok => simpa [taskStep] using h

theorem capture_registers_finalizer (evs : List TaskEvent) (n : String) (p : Nat) :
    ∀ s : TaskTracker, TaskEvent.capture n p ∈ evs →
      (n, p) ∈ (evs.foldl taskStep s).finalizers := by
  induction evs with
  | nil => intro s h; simp at h
  | cons e rest ih =>
      intro s h
      rcases List.mem_cons.mp h with h | h
      · subst h
        rw [List.foldl_cons]
        apply finalizers_monotone
        show (n, p) ∈ s.finalizers ++ [(n, p)]
        exact List.mem_append_right _ (List.mem_singleton.mpr rfl)
      · exact ih _ h

theorem settle_clears_name (s : TaskTracker) (n : String) (p : Nat) (ok : Bool)
    (h : (n, p) ∈ s.finalizers) :
    ((taskStep s (.settle p ok)).pending.lookup n) = none := by
  simp only [taskStep]
  induction s.pending with
  | nil => rfl
  | cons q rest ih =>
      by_cases hq : q.1 = n
      · rw [List.filter_cons_of_neg (by simp; rw [hq]; exact h)]
        exact ih
      · by_cases hf : (q.1, p) ∈ s.finalizers
        · rw [List.filter_cons_of_neg (by simp; exact hf)]
          exact ih
        · rw [List.filter_cons_of_pos (by simp; exact hf)]
          have hbeq : (n == q.1) = false := by
            simp only [beq_eq_false_iff_ne]
            exact fun hh => hq hh.symm
          cases hqq : q with
          | mk q1 q2 =>
              rw [hqq] at hbeq
              simp only [List.lookup, hbeq]
              exact ih

/-! ## The write sequencer (`SyncQueue`) -/

/-- A scheduler command for the single-threaded event loop: `push i`
submits item `i` (`SyncQueue.push`, which enqueues and synchronously calls
`process()`); `complete i` is the later event-loop turn in which the worker
promise for item `i` settles — resolving or rejecting the caller's promise
and running the `.finally` clause that clears `isProcessing` and re-runs
`process()`; `abortCall` is a call of `abort()`.  Quantifying over command
sequences covers every number of items and every completion-delay
distribution. -/
inductive SqCmd where
  | push (i : Nat)
  | complete (i : Nat)
  | abortCall
  deriving DecidableEq

/-- Observable worker events: `start i` is the invocation `run(data_i)`,
`finish i` is the settlement of that worker's promise (and with it of the
promise `push` returned for `i`). -/
inductive SqEv where
  | start (i : Nat)
  | finish (i : Nat)
  deriving DecidableEq

/-- The `SyncQueue` state: the pending items, the `isProcessing` flag, and
the (ghost) list of workers currently in flight — the promise chains
`run(data)` already started.  Without `abort` there is at most one. -/
structure SqState where
  queue : List Nat
  isProcessing : Bool
  running : List Nat
  deriving DecidableEq

/-- A freshly constructed queue. -/
def sqInit : SqState := { queue := [], isProcessing := false, running := [] }

/-- `process()`: returns at once while `isProcessing` is set or the queue
is empty; otherwise shifts the oldest item, sets the flag and starts its
worker. -/
def sqProcess (s : SqState) : SqState × List SqEv :=
  if s.isProcessing then (s, [])
  else
    match s.queue with
    | [] => (s, [])
    | t :: rest =>
        ({ queue := rest, isProcessing := true, running := s.running ++ [t] },
          [SqEv.start t])

/-- One command.  `complete i` fires only when `i`'s worker is in flight:
the worker promise settles (the `finish` event covers `resolve`/`reject` of
the pushed promise) and the `finally` clause clears `isProcessing` and
calls `process()`.  `abort()` empties the queue and clears the flag; it
does not cancel an in-flight worker. -/
def sqStep (s : SqState) : SqCmd → SqState × List SqEv
  | .push i =>
      sqProcess { s with queue := s.queue ++ [i] }
  | .complete i =>
      if s.running.contains i then
        let s1 := { s with running := s.running.erase i, isProcessing := false }
        let (s2, evs) := sqProcess s1
        (s2, SqEv.finish i :: evs)
      else (s, [])
  | .abortCall => ({ s with queue := [], isProcessing := false }, [])

/-- Run commands from a state, accumulating the event trace. -/
def runFrom (s : SqState) : List SqCmd → SqState × List SqEv
  | [] => (s, [])
  | c :: cs =>
      let p1 := sqStep s c
      let p2 := runFrom p1.1 cs
      (p2.1, p1.2 ++ p2.2)

/-- Run commands from the initial queue. -/
def runSq (cs : List SqCmd) : SqState × List SqEv := runFrom sqInit cs

/-- The ids pushed by a command sequence, in submission order. -/
def pushIds (cs : List SqCmd) : List Nat :=
  cs.filterMap (fun c => match c with | .push i => some i | _ => none)

/-- Recognises `abort()` calls. -/
def isAbortCmd : SqCmd → Bool
  | .abortCall => true
  | _ => false

/-- The `start`/`finish` pairs, in order, of a list of completed items. -/
def doneTrace : List Nat → List SqEv
  | [] => []
  | i :: rest => SqEv.start i :: SqEv.finish i :: doneTrace rest

theorem doneTrace_append (l1 l2 : List Nat) :
    doneTrace (l1 ++ l2) = doneTrace l1 ++ doneTrace l2 := by
  induction l1 with
  | nil => rfl
  | cons i rest ih => simp [doneTrace, ih]

theorem pushIds_append (cs1 cs2 : List SqCmd) :
    pushIds (cs1 ++ cs2) = pushIds cs1 ++ pushIds cs2 := by
  simp [pushIds]

theorem runFrom_append (cs1 cs2 : List SqCmd) :
    ∀ s, runFrom s (cs1 ++ cs2) =
      ((runFrom (runFrom s cs1).1 cs2).1,
        (runFrom s cs1).2 ++ (runFrom (runFrom s cs1).1 cs2).2) := by
  induction cs1 with
  | nil => intro s; simp [runFrom]
  | cons c rest ih =>
      intro s
      simp [runFrom, ih, List.append_assoc]

/-- Trace/state shape of an abort-free run: some prefix `F` of the pushed
ids has fully completed in order, the ids `R` are in flight (at most one),
the remainder is still queued, and the trace is exactly the completed
start/finish pairs followed by the start of the in-flight worker. -/
def SqShape (cs : List SqCmd) (F R : List Nat) : Prop :=
  pushIds cs = F ++ R ++ (runSq cs).1.queue ∧
  (runSq cs).2 = doneTrace F ++ R.map SqEv.start ∧
  (runSq cs).1.running = R ∧
  R.length ≤ 1 ∧
  (runSq cs).1.isProcessing = !R.isEmpty ∧
  ((runSq cs).1.isProcessing = false → (runSq cs).1.queue = [])

theorem runSq_shape (cs : List SqCmd) (hna : ∀ c ∈ cs, isAbortCmd c = false) :
    ∃ F R, SqShape cs F R := by
  induction cs using List.reverseRecOn with
  | nil =>
      refine ⟨[], [], ?_⟩
      simp [SqShape, runSq, runFrom, pushIds, doneTrace, sqInit]
  | append_singleton cs c ih =>
      obtain ⟨F, R, h1, h2, h3, h4, h5, h6⟩ :=
        ih (fun c' hc' => hna c' (List.mem_append_left _ hc'))
      have hcab : isAbortCmd c = false := hna c (by simp)
      have hrun1 : (runSq (cs ++ [c])).1 = (sqStep (runSq cs).1 c).1 := by
        rw [runSq, runFrom_append]
        simp [runFrom, runSq]
      have hrun2 : (runSq (cs ++ [c])).2 =
          (runSq cs).2 ++ (sqStep (runSq cs).1 c).2 := by
        rw [runSq, runFrom_append]
        simp [runFrom, runSq]
      cases c with
      | abortCall => simp [isAbortCmd] at hcab
      | push i =>
          by_cases hp : (runSq cs).1.isProcessing = true
          · have hstep : sqStep (runSq cs).1 (.push i) =
                ({ (runSq cs).1 with queue := (runSq cs).1.queue ++ [i] }, []) := by
              simp [sqStep, sqProcess, hp]
            refine ⟨F, R, ?_, ?_, ?_, h4, ?_, ?_⟩
            · rw [pushIds_append, hrun1, hstep,
                show pushIds [SqCmd.push i] = [i] from rfl, h1]
              simp [List.append_assoc]
            · rw [hrun2, hstep, h2]
              simp
            · rw [hrun1, hstep]
              exact h3
            · rw [hrun1, hstep]
              simpa using h5
            · rw [hrun1, hstep]
              intro hfalse
              simp only at hfalse
              rw [hp] at hfalse
              exact absurd hfalse (by simp)
          · have hp' : (runSq cs).1.isProcessing = false := by simpa using hp
            have hRnil : R = [] := by
              rw [hp'] at h5
              cases R with
              | nil => rfl
              | cons r R' => simp at h5
            have hQnil : (runSq cs).1.queue = [] := h6 hp'
            have hstep : sqStep (runSq cs).1 (.push i) =
                ({ queue := [], isProcessing := true,
                   running := (runSq cs).1.running ++ [i] }, [SqEv.start i]) := by
              simp [sqStep, sqProcess, hp', hQnil]
            refine ⟨F, [i], ?_, ?_, ?_, by simp, ?_, ?_⟩
            · rw [pushIds_append, hrun1, hstep,
                show pushIds [SqCmd.push i] = [i] from rfl, h1, hRnil, hQnil]
              simp
            · rw [hrun2, hstep, h2, hRnil]
              simp
            · rw [hrun1, hstep]
              show (runSq cs).1.running ++ [i] = [i]
              rw [h3, hRnil]
              rfl
            · rw [hrun1, hstep]
              rfl
            · rw [hrun1, hstep]
              intro hfalse
              simp at hfalse
      | complete i =>
          by_cases hr : (runSq cs).1.running.contains i = true
          · have hRi : R = [i] := by
              rw [h3] at hr
              cases R with
              | nil => simp at hr
              | cons r R' =>
                  cases R' with
                  | nil =>
                      simp at hr
                      rw [hr]
                  | cons r2 R'' => simp at h4
            have hproc : (runSq cs).1.isProcessing = true := by
              rw [h5, hRi]
              rfl
            have herase : (runSq cs).1.running.erase i = [] := by
              rw [h3, hRi]
              simp
            have hmem : i ∈ (runSq cs).1.running := by
              rw [h3, hRi]
              simp
            cases hQ : (runSq cs).1.queue with
            | nil =>
                have hstep : sqStep (runSq cs).1 (.complete i) =
                    ({ (runSq cs).1 with running := [], isProcessing := false },
                      [SqEv.finish i]) := by
                  simp [sqStep, hmem, herase, sqProcess, hQ]
                refine ⟨F ++ [i], [], ?_, ?_, ?_, by simp, ?_, ?_⟩
                · rw [pushIds_append, hrun1, hstep,
                    show pushIds [SqCmd.complete i] = [] from rfl, h1, hRi, hQ]
                · rw [hrun2, hstep, h2, hRi, doneTrace_append]
                  simp [doneTrace]
                · rw [hrun1, hstep]
                · rw [hrun1, hstep]
                  rfl
                · rw [hrun1, hstep]
                  intro _
                  show (runSq cs).1.queue = []
                  exact hQ
            | cons t rest =>
                have hstep : sqStep (runSq cs).1 (.complete i) =
                    ({ queue := rest, isProcessing := true, running := [t] },
                      [SqEv.finish i, SqEv.start t]) := by
                  simp [sqStep, hmem, herase, sqProcess, hQ]
                refine ⟨F ++ [i], [t], ?_, ?_, ?_, by simp, ?_, ?_⟩
                · rw [pushIds_append, hrun1, hstep,
                    show pushIds [SqCmd.complete i] = [] from rfl, h1, hRi, hQ]
                  simp
                · rw [hrun2, hstep, h2, hRi, doneTrace_append]
                  simp [doneTrace]
                · rw [hrun1, hstep]
                · rw [hrun1, hstep]
                  rfl
                · rw [hrun1, hstep]
                  intro hfalse
                  simp at hfalse
          · have hmem : i ∉ (runSq cs).1.running := by
              intro hm
              exact hr (List.elem_eq_true_of_mem hm)
            have hstep : sqStep (runSq cs).1 (.complete i) = ((runSq cs).1, []) := by
              simp [sqStep, hmem]
            refine ⟨F, R, ?_, ?_, ?_, h4, ?_, ?_⟩
            · rw [pushIds_append, hrun1, hstep,
                show pushIds [SqCmd.complete i] = [] from rfl, h1]
              simp
            · rw [hrun2, hstep, h2]
              simp
            · rw [hrun1, hstep]
              exact h3
            · rw [hrun1, hstep]
              exact h5
            · rw [hrun1, hstep]
              exact h6

theorem doneTrace_sublist {l1 l2 : List Nat} (h : l1.Sublist l2) :
    (doneTrace l1).Sublist (doneTrace l2) := by
  induction h with
  | slnil => exact List.Sublist.slnil
  | cons x h ih => exact (ih.cons _).cons _
  | cons₂ x h ih => exact (ih.cons₂ _).cons₂ _

theorem start_mem_doneTrace {b : Nat} {F : List Nat}
    (h : SqEv.start b ∈ doneTrace F) : b ∈ F := by
  induction F with
  | nil => simp [doneTrace] at h
  | cons i rest ih =>
      simp only [doneTrace, List.mem_cons] at h
      rcases h with h | h | h
      · injection h with h'
        simp [h']
      · exact absurd h (by simp)
      · exact List.mem_cons_of_mem _ (ih h)

theorem finish_sublist_doneTrace {a : Nat} {F : List Nat} (h : a ∈ F) :
    [SqEv.finish a].Sublist (doneTrace F) := by
  have h1 : [a].Sublist F := List.singleton_sublist.mpr h
  have h2 : (doneTrace [a]).Sublist (doneTrace F) := doneTrace_sublist h1
  exact (List.Sublist.cons (SqEv.start a)
    (List.Sublist.cons₂ (SqEv.finish a) (List.nil_sublist []))).trans h2

theorem pair_split {α : Type} (a b : α) (l1 l2 : List α) (h : l1 ++ l2 = [a, b]) :
    (l1 = [] ∧ l2 = [a, b]) ∨ (l1 = [a] ∧ l2 = [b]) ∨ (l1 = [a, b] ∧ l2 = []) := by
  cases l1 with
  | nil => exact Or.inl ⟨rfl, by simpa using h⟩
  | cons x l1' =>
      cases l1' with
      | nil =>
          simp only [List.cons_append, List.nil_append, List.cons.injEq] at h
          exact Or.inr (Or.inl ⟨by rw [h.1], h.2⟩)
      | cons y l1'' =>
          simp only [List.cons_append, List.cons.injEq] at h
          obtain ⟨hx, hy, hl⟩ := h
          have hl'' : l1'' = [] ∧ l2 = [] := by
            constructor
            · cases l1'' with
              | nil => rfl
              | cons z l => simp at hl
            · cases l1'' with
              | nil => simpa using hl
              | cons z l => simp at hl
          exact Or.inr (Or.inr ⟨by rw [hx, hy, hl''.1], hl''.2⟩)

/-- Claim C1: Write Sequencer ordering — for every sequence of event-loop
commands without `abort()` (arbitrary pushes interleaved with arbitrary
worker completions, i.e. all N and all delay distributions), if item `a`
was pushed before item `b` (ids distinct) and `b`'s worker has started,
then `a`'s worker had already fully completed (resolved or rejected) before
`b`'s worker began: `finish a` precedes `start b` in the event trace. -/
theorem syncQueue_strict_ordering (cs : List SqCmd) (a b : Nat)
    (hab : [a, b].Sublist (pushIds cs))
    (hnd : (pushIds cs).Nodup)
    (hna : cs.all (fun c => !isAbortCmd c) = true)
    (hb : SqEv.start b ∈ (runSq cs).2) :
    [SqEv.finish a, SqEv.start b].Sublist (runSq cs).2 := by
  have hna' : ∀ c ∈ cs, isAbortCmd c = false := by
    intro c hc
    have hx := List.all_eq_true.mp hna c hc
    simpa using hx
  have hne : a ≠ b := by
    intro he
    subst he
    have hx := hab.nodup hnd
    simp at hx
  obtain ⟨F, R, h1, h2, h3, h4, h5, h6⟩ := runSq_shape cs hna'
  rw [h2] at hb ⊢
  rw [h1] at hab hnd
  have hndFR : (F ++ R).Nodup := (List.nodup_append.mp hnd).1
  have hdisjQ : (F ++ R).Disjoint (runSq cs).1.queue := (List.nodup_append.mp hnd).2.2
  have hdisjFR : F.Disjoint R := (List.nodup_append.mp hndFR).2.2
  have hbFR : b ∈ F ∨ b ∈ R := by
    rcases List.mem_append.mp hb with h | h
    · exact Or.inl (start_mem_doneTrace h)
    · right
      rcases List.mem_map.mp h with ⟨x, hx, he⟩
      injection he with he'
      rw [← he']
      exact hx
  obtain ⟨l1, l2, hsplit, hs1, hs2⟩ := List.sublist_append_iff.mp hab
  rcases hbFR with hbF | hbR
  · have hbnQ : b ∉ (runSq cs).1.queue :=
      fun hc => hdisjQ (List.mem_append_left _ hbF) hc
    have hbnR : b ∉ R := fun hc => hdisjFR hbF hc
    have habF : [a, b].Sublist F := by
      rcases pair_split a b l1 l2 hsplit.symm with ⟨e1, e2⟩ | ⟨e1, e2⟩ | ⟨e1, e2⟩
      · rw [e2] at hs2
        exact absurd (hs2.subset (by simp)) hbnQ
      · rw [e2] at hs2
        exact absurd (hs2.subset (by simp)) hbnQ
      · rw [e1] at hs1
        obtain ⟨m1, m2, hsp, hm1, hm2⟩ := List.sublist_append_iff.mp hs1
        rcases pair_split a b m1 m2 hsp.symm with ⟨f1, f2⟩ | ⟨f1, f2⟩ | ⟨f1, f2⟩
        · rw [f2] at hm2
          exact absurd (hm2.subset (by simp)) hbnR
        · rw [f2] at hm2
          exact absurd (hm2.subset (by simp)) hbnR
        · rw [f1] at hm1
          exact hm1
    have hsub : [SqEv.finish a, SqEv.start b].Sublist (doneTrace F) := by
      have hd := doneTrace_sublist habF
      refine List.Sublist.trans ?_ hd
      exact List.Sublist.cons (SqEv.start a)
        (List.Sublist.cons₂ (SqEv.finish a)
          (List.Sublist.cons₂ (SqEv.start b)
            (List.nil_sublist [SqEv.finish b])))
    exact hsub.trans (List.sublist_append_left _ _)
  · have hbnF : b ∉ F := fun hc => hdisjFR hc hbR
    have hbnQ : b ∉ (runSq cs).1.queue :=
      fun hc => hdisjQ (List.mem_append_right _ hbR) hc
    have hRb : R = [b] := by
      cases R with
      | nil => simp at hbR
      | cons r R' =>
          cases R' with
          | nil =>
              simp only [List.mem_singleton] at hbR
              rw [hbR]
          | cons r2 R'' => simp at h4
    have haF : a ∈ F := by
      rcases pair_split a b l1 l2 hsplit.symm with ⟨e1, e2⟩ | ⟨e1, e2⟩ | ⟨e1, e2⟩
      · rw [e2] at hs2
        exact absurd (hs2.subset (by simp)) hbnQ
      · rw [e2] at hs2
        exact absurd (hs2.subset (by simp)) hbnQ
      · rw [e1] at hs1
        obtain ⟨m1, m2, hsp, hm1, hm2⟩ := List.sublist_append_iff.mp hs1
        rcases pair_split a b m1 m2 hsp.symm with ⟨f1, f2⟩ | ⟨f1, f2⟩ | ⟨f1, f2⟩
        · rw [f2] at hm2
          rw [hRb] at hm2
          have := hm2.length_le
          simp at this
        · rw [f1] at hm1
          exact List.singleton_sublist.mp hm1
        · rw [f1] at hm1
          exact absurd (hm1.subset (by simp)) hbnF
    rw [hRb]
    have hfin : [SqEv.finish a].Sublist (doneTrace F) := finish_sublist_doneTrace haF
    have hstart : [SqEv.start b].Sublist ([b].map SqEv.start) := by simp
    exact hfin.append hstart

theorem sqProcess_cases (s : SqState) :
    sqProcess s = (s, []) ∨
    ∃ t rest, s.isProcessing = false ∧ s.queue = t :: rest ∧
      sqProcess s =
        ({ queue := rest, isProcessing := true, running := s.running ++ [t] },
          [SqEv.start t]) := by
  unfold sqProcess
  by_cases hp : s.isProcessing = true
  · left
    rw [if_pos hp]
  · have hp' : s.isProcessing = false := by simpa using hp
    rw [if_neg hp]
    cases hq : s.queue with
    | nil => left; rfl
    | cons t rest => right; exact ⟨t, rest, hp', rfl, rfl⟩

/-- Safety facts of an arbitrary run (aborts allowed), under distinct push
ids: items in the queue or in flight were pushed; started items were
pushed; queued items have not started; settled items had started; in-flight
items have started; and queue plus in-flight workers carry no duplicate. -/
def SqSafe (cs : List SqCmd) : Prop :=
  (∀ j, j ∈ (runSq cs).1.queue ∨ j ∈ (runSq cs).1.running → j ∈ pushIds cs) ∧
  (∀ j, SqEv.start j ∈ (runSq cs).2 → j ∈ pushIds cs) ∧
  (∀ j, j ∈ (runSq cs).1.queue → SqEv.start j ∉ (runSq cs).2) ∧
  (∀ j, SqEv.finish j ∈ (runSq cs).2 → SqEv.start j ∈ (runSq cs).2) ∧
  (∀ j, j ∈ (runSq cs).1.running → SqEv.start j ∈ (runSq cs).2) ∧
  ((runSq cs).1.queue ++ (runSq cs).1.running).Nodup

theorem runSq_safety (cs : List SqCmd) (hnd : (pushIds cs).Nodup) : SqSafe cs := by
  induction cs using List.reverseRecOn with
  | nil =>
      refine ⟨?_, ?_, ?_, ?_, ?_, ?_⟩ <;>
        simp [runSq, runFrom, sqInit, pushIds]
  | append_singleton cs c ih =>
      rw [pushIds_append] at hnd
      obtain ⟨hndc, hndc2, hdisj⟩ := List.nodup_append.mp hnd
      obtain ⟨hA, hC, hB, hD, hE, hF⟩ := ih hndc
      have hrun1 : (runSq (cs ++ [c])).1 = (sqStep (runSq cs).1 c).1 := by
        rw [runSq, runFrom_append]
        simp [runFrom, runSq]
      have hrun2 : (runSq (cs ++ [c])).2 =
          (runSq cs).2 ++ (sqStep (runSq cs).1 c).2 := by
        rw [runSq, runFrom_append]
        simp [runFrom, runSq]
      have hpush : pushIds (cs ++ [c]) = pushIds cs ++ pushIds [c] :=
        pushIds_append cs [c]
      cases c with
      | abortCall =>
          have hstep : sqStep (runSq cs).1 .abortCall =
              ({ (runSq cs).1 with queue := [], isProcessing := false }, []) := rfl
          rw [SqSafe, hrun1, hrun2, hstep, hpush]
          refine ⟨?_, ?_, ?_, ?_, ?_, ?_⟩
          · intro j hj
            rcases hj with hj | hj
            · simp at hj
            · exact List.mem_append_left _ (hA j (Or.inr hj))
          · intro j hj
            rw [List.append_nil] at hj
            exact List.mem_append_left _ (hC j hj)
          · intro j hj
            simp at hj
          · intro j hj
            rw [List.append_nil] at hj ⊢
            exact hD j hj
          · intro j hj
            rw [List.append_nil]
            exact hE j hj
          · show ([] ++ (runSq cs).1.running).Nodup
            rw [List.nil_append]
            exact (List.nodup_append.mp hF).2.1
      | push i =>
          have hfresh : i ∉ pushIds cs := fun hi => hdisj hi (by simp [pushIds])
          have hpushc : pushIds [SqCmd.push i] = [i] := rfl
          have hstep : sqStep (runSq cs).1 (.push i) =
              sqProcess { (runSq cs).1 with
                queue := (runSq cs).1.queue ++ [i] } := rfl
          have hstartfresh : SqEv.start i ∉ (runSq cs).2 :=
            fun hs => hfresh (hC i hs)
          have hQI : ∀ j, j ∈ (runSq cs).1.queue ++ [i] →
              j ∈ pushIds cs ++ [i] := by
            intro j hj
            rcases List.mem_append.mp hj with hj | hj
            · exact List.mem_append_left _ (hA j (Or.inl hj))
            · exact List.mem_append_right _ hj
          have hqinodup : ((runSq cs).1.queue ++ [i]).Nodup := by
            have hqn : (runSq cs).1.queue.Nodup := (List.nodup_append.mp hF).1
            rw [List.nodup_append]
            refine ⟨hqn, by simp, ?_⟩
            intro x hx
            simp only [List.mem_singleton]
            intro he
            subst he
            exact hfresh (hA x (Or.inl hx))
          have hqidisj : ∀ x, x ∈ (runSq cs).1.queue ++ [i] →
              x ∉ (runSq cs).1.running := by
            intro x hx hr
            rcases List.mem_append.mp hx with hx | hx
            · exact (List.nodup_append.mp hF).2.2 hx hr
            · simp only [List.mem_singleton] at hx
              subst hx
              exact hfresh (hA x (Or.inr hr))
          rcases sqProcess_cases
              { (runSq cs).1 with queue := (runSq cs).1.queue ++ [i] } with
            hP | ⟨t, rest, hproc, hqeq, hP⟩
          · rw [SqSafe, hrun1, hrun2, hstep, hP, hpush, hpushc]
            refine ⟨?_, ?_, ?_, ?_, ?_, ?_⟩
            · intro j hj
              rcases hj with hj | hj
              · exact hQI j hj
              · exact List.mem_append_left _ (hA j (Or.inr hj))
            · intro j hj
              rw [List.append_nil] at hj
              exact List.mem_append_left _ (hC j hj)
            · intro j hj
              rw [List.append_nil]
              rcases List.mem_append.mp hj with hj | hj
              · exact hB j hj
              · simp only [List.mem_singleton] at hj
                rw [hj]
                exact hstartfresh
            · intro j hj
              rw [List.append_nil] at hj ⊢
              exact hD j hj
            · intro j hj
              rw [List.append_nil]
              exact hE j hj
            · show (((runSq cs).1.queue ++ [i]) ++ (runSq cs).1.running).Nodup
              rw [List.append_assoc]
              rw [show [i] ++ (runSq cs).1.running = i :: (runSq cs).1.running from rfl]
              rw [List.nodup_middle]
              refine List.Nodup.cons ?_ hF
              intro hc
              rcases List.mem_append.mp hc with hc | hc
              · exact hfresh (hA i (Or.inl hc))
              · exact hfresh (hA i (Or.inr hc))
          · simp only at hqeq
            have htmem : t ∈ (runSq cs).1.queue ++ [i] := by
              rw [hqeq]
              simp
            have htrest : (t :: rest).Nodup := by
              rw [← hqeq]
              exact hqinodup
            have hrest_sub : ∀ j, j ∈ rest → j ∈ (runSq cs).1.queue ++ [i] := by
              intro j hj
              rw [hqeq]
              exact List.mem_cons_of_mem _ hj
            rw [SqSafe, hrun1, hrun2, hstep, hP, hpush, hpushc]
            refine ⟨?_, ?_, ?_, ?_, ?_, ?_⟩
            · intro j hj
              rcases hj with hj | hj
              · exact hQI j (hrest_sub j hj)
              · rcases List.mem_append.mp hj with hj | hj
                · exact List.mem_append_left _ (hA j (Or.inr hj))
                · simp only [List.mem_singleton] at hj
                  rw [hj]
                  exact hQI t htmem
            · intro j hj
              rcases List.mem_append.mp hj with hj | hj
              · exact List.mem_append_left _ (hC j hj)
              · simp only [List.mem_singleton, SqEv.start.injEq] at hj
                rw [hj]
                exact hQI t htmem
            · intro j hj hins
              have hjq : j ∈ (runSq cs).1.queue ++ [i] := hrest_sub j hj
              rcases List.mem_append.mp hins with hins | hins
              · rcases List.mem_append.mp hjq with hjq' | hjq'
                · exact hB j hjq' hins
                · simp only [List.mem_singleton] at hjq'
                  rw [hjq'] at hins
                  exact hstartfresh hins
              · simp only [List.mem_singleton, SqEv.start.injEq] at hins
                rw [hins] at hj
                exact ((List.nodup_cons.mp htrest).1 hj)
            · intro j hj
              rcases List.mem_append.mp hj with hj | hj
              · exact List.mem_append_left _ (hD j hj)
              · simp at hj
            · intro j hj
              rcases List.mem_append.mp hj with hj | hj
              · exact List.mem_append_left _ (hE j hj)
              · simp only [List.mem_singleton] at hj
                rw [hj]
                exact List.mem_append_right _ (by simp)
            · show (rest ++ ((runSq cs).1.running ++ [t])).Nodup
              have htnr : t ∉ (runSq cs).1.running := hqidisj t htmem
              have hrestq : rest.Nodup := (List.nodup_cons.mp htrest).2
              have htnotrest : t ∉ rest := (List.nodup_cons.mp htrest).1
              rw [List.nodup_append]
              refine ⟨hrestq, ?_, ?_⟩
              · rw [List.nodup_append]
                exact ⟨(List.nodup_append.mp hF).2.1, by simp,
                  fun x hx => by
                    simp only [List.mem_singleton]
                    intro he
                    rw [he] at hx
                    exact htnr hx⟩
              · intro x hx
                intro hc
                rcases List.mem_append.mp hc with hc | hc
                · exact hqidisj x (hrest_sub x hx) hc
                · simp only [List.mem_singleton] at hc
                  rw [hc] at hx
                  exact htnotrest hx
      | complete i =>
          have hpushc : pushIds [SqCmd.complete i] = ([] : List Nat) := rfl
          by_cases hmem : i ∈ (runSq cs).1.running
          · have hstep : sqStep (runSq cs).1 (.complete i) =
                ((sqProcess { (runSq cs).1 with
                    running := (runSq cs).1.running.erase i,
                    isProcessing := false }).1,
                  SqEv.finish i ::
                    (sqProcess { (runSq cs).1 with
                      running := (runSq cs).1.running.erase i,
                      isProcessing := false }).2) := by
              simp [sqStep, hmem]
            have herasesub : ∀ j, j ∈ (runSq cs).1.running.erase i →
                j ∈ (runSq cs).1.running :=
              fun j hj => (List.erase_sublist _ _).subset hj
            rcases sqProcess_cases
                { (runSq cs).1 with
                  running := (runSq cs).1.running.erase i,
                  isProcessing := false } with
              hP | ⟨t, rest, hproc, hqeq, hP⟩
            · rw [SqSafe, hrun1, hrun2, hstep, hP, hpush, hpushc, List.append_nil]
              refine ⟨?_, ?_, ?_, ?_, ?_, ?_⟩
              · intro j hj
                rcases hj with hj | hj
                · exact hA j (Or.inl hj)
                · exact hA j (Or.inr (herasesub j hj))
              · intro j hj
                rcases List.mem_append.mp hj with hj | hj
                · exact hC j hj
                · simp at hj
              · intro j hj hins
                rcases List.mem_append.mp hins with hins | hins
                · exact hB j hj hins
                · simp at hins
              · intro j hj
                rcases List.mem_append.mp hj with hj | hj
                · exact List.mem_append_left _ (hD j hj)
                · simp only [List.mem_singleton, SqEv.finish.injEq] at hj
                  rw [hj]
                  exact List.mem_append_left _ (hE i hmem)
              · intro j hj
                exact List.mem_append_left _ (hE j (herasesub j hj))
              · show ((runSq cs).1.queue ++ (runSq cs).1.running.erase i).Nodup
                exact ((List.Sublist.refl _).append (List.erase_sublist _ _)).nodup hF
            · simp only at hqeq
              have htrest : (t :: rest).Nodup := by
                rw [← hqeq]
                exact (List.nodup_append.mp hF).1
              have htq : t ∈ (runSq cs).1.queue := by
                rw [hqeq]
                simp
              have hrest_sub : ∀ j, j ∈ rest → j ∈ (runSq cs).1.queue := by
                intro j hj
                rw [hqeq]
                exact List.mem_cons_of_mem _ hj
              rw [SqSafe, hrun1, hrun2, hstep, hP, hpush, hpushc, List.append_nil]
              refine ⟨?_, ?_, ?_, ?_, ?_, ?_⟩
              · intro j hj
                rcases hj with hj | hj
                · exact hA j (Or.inl (hrest_sub j hj))
                · rcases List.mem_append.mp hj with hj | hj
                  · exact hA j (Or.inr (herasesub j hj))
                  · simp only [List.mem_singleton] at hj
                    rw [hj]
                    exact hA t (Or.inl htq)
              · intro j hj
                rcases List.mem_append.mp hj with hj | hj
                · exact hC j hj
                · simp at hj
                  rw [hj]
                  exact hA t (Or.inl htq)
              · intro j hj hins
                rcases List.mem_append.mp hins with hins | hins
                · exact hB j (hrest_sub j hj) hins
                · simp at hins
                  rw [hins] at hj
                  exact (List.nodup_cons.mp htrest).1 hj
              · intro j hj
                rcases List.mem_append.mp hj with hj | hj
                · exact List.mem_append_left _ (hD j hj)
                · simp at hj
                  rw [hj]
                  exact List.mem_append_left _ (hE i hmem)
              · intro j hj
                rcases List.mem_append.mp hj with hj | hj
                · exact List.mem_append_left _ (hE j (herasesub j hj))
                · simp only [List.mem_singleton] at hj
                  rw [hj]
                  exact List.mem_append_right _ (by simp)
              · show (rest ++ ((runSq cs).1.running.erase i ++ [t])).Nodup
                have hqdisj := (List.nodup_append.mp hF).2.2
                have htnr : t ∉ (runSq cs).1.running := fun hc => hqdisj htq hc
                rw [List.nodup_append]
                refine ⟨(List.nodup_cons.mp htrest).2, ?_, ?_⟩
                · rw [List.nodup_append]
                  refine ⟨(List.erase_sublist _ _).nodup
                      (List.nodup_append.mp hF).2.1, by simp, ?_⟩
                  intro x hx
                  simp only [List.mem_singleton]
                  intro he
                  rw [he] at hx
                  exact htnr (herasesub t hx)
                · intro x hx hc
                  rcases List.mem_append.mp hc with hc | hc
                  · exact hqdisj (hrest_sub x hx) (herasesub x hc)
                  · simp only [List.mem_singleton] at hc
                    rw [hc] at hx
                    exact (List.nodup_cons.mp htrest).1 hx
          · have hstep : sqStep (runSq cs).1 (.complete i) = ((runSq cs).1, []) := by
              simp [sqStep, hmem]
            rw [SqSafe, hrun1, hrun2, hstep, hpush, hpushc, List.append_nil,
              List.append_nil]
            exact ⟨hA, hC, hB, hD, hE, hF⟩

theorem mem_pushIds_of_push_mem {i : Nat} {cs : List SqCmd}
    (h : SqCmd.push i ∈ cs) : i ∈ pushIds cs := by
  rw [pushIds, List.mem_filterMap]
  exact ⟨SqCmd.push i, h, rfl⟩

/-- After the abort, an item that is in neither the queue nor in flight and
is never pushed again stays out, is never started, and never settles. -/
theorem runFrom_avoid (cs : List SqCmd) :
    ∀ (s : SqState) (i : Nat), i ∉ s.queue → i ∉ s.running →
      SqCmd.push i ∉ cs →
      i ∉ (runFrom s cs).1.queue ∧ i ∉ (runFrom s cs).1.running ∧
      SqEv.start i ∉ (runFrom s cs).2 ∧ SqEv.finish i ∉ (runFrom s cs).2 := by
  induction cs with
  | nil =>
      intro s i hq hr _
      exact ⟨hq, hr, by simp [runFrom], by simp [runFrom]⟩
  | cons c rest ih =>
      intro s i hq hr hp
      have hpc : c ≠ SqCmd.push i := fun he => hp (he ▸ List.mem_cons_self _ _)
      have hprest : SqCmd.push i ∉ rest := fun hh => hp (List.mem_cons_of_mem _ hh)
      have hstep : i ∉ (sqStep s c).1.queue ∧ i ∉ (sqStep s c).1.running ∧
          SqEv.start i ∉ (sqStep s c).2 ∧ SqEv.finish i ∉ (sqStep s c).2 := by
        cases c with
        | push j =>
            have hij : j ≠ i := fun he => hpc (by rw [he])
            have hqi : i ∉ s.queue ++ [j] := by
              intro hc
              rcases List.mem_append.mp hc with hc | hc
              · exact hq hc
              · simp only [List.mem_singleton] at hc
                exact hij hc.symm
            rcases sqProcess_cases { s with queue := s.queue ++ [j] } with
              hP | ⟨t, rest', hproc, hqeq, hP⟩
            · rw [show sqStep s (.push j) =
                  sqProcess { s with queue := s.queue ++ [j] } from rfl, hP]
              exact ⟨hqi, hr, by simp, by simp⟩
            · simp only at hqeq
              rw [show sqStep s (.push j) =
                  sqProcess { s with queue := s.queue ++ [j] } from rfl, hP]
              have hit : i ≠ t := by
                intro he
                apply hqi
                rw [hqeq, he]
                exact List.mem_cons_self _ _
              refine ⟨?_, ?_, ?_, by simp⟩
              · intro hc
                apply hqi
                rw [hqeq]
                exact List.mem_cons_of_mem _ hc
              · intro hc
                rcases List.mem_append.mp hc with hc | hc
                · exact hr hc
                · simp only [List.mem_singleton] at hc
                  exact hit hc
              · simp only [List.mem_singleton, SqEv.start.injEq]
                intro hc
                exact hit hc
        | complete j =>
            by_cases hm : j ∈ s.running
            · have hij : j ≠ i := fun he => hr (he ▸ hm)
              have herasei : i ∉ s.running.erase j :=
                fun hc => hr ((List.erase_sublist _ _).subset hc)
              have hstepc : sqStep s (.complete j) =
                  ((sqProcess { s with
                      running := s.running.erase j, isProcessing := false }).1,
                    SqEv.finish j ::
                      (sqProcess { s with
                        running := s.running.erase j, isProcessing := false }).2) := by
                simp [sqStep, hm]
              rcases sqProcess_cases { s with
                  running := s.running.erase j, isProcessing := false } with
                hP | ⟨t, rest', hproc, hqeq, hP⟩
              · rw [hstepc, hP]
                refine ⟨hq, herasei, by simp, ?_⟩
                simp only [List.mem_cons, List.not_mem_nil, or_false,
                  SqEv.finish.injEq]
                intro hc
                exact hij hc.symm
              · simp only at hqeq
                rw [hstepc, hP]
                have hit : i ≠ t := by
                  intro he
                  apply hq
                  rw [hqeq, he]
                  exact List.mem_cons_self _ _
                refine ⟨?_, ?_, ?_, ?_⟩
                · intro hc
                  apply hq
                  rw [hqeq]
                  exact List.mem_cons_of_mem _ hc
                · intro hc
                  rcases List.mem_append.mp hc with hc | hc
                  · exact herasei hc
                  · simp only [List.mem_singleton] at hc
                    exact hit hc
                · simp only [List.mem_cons, List.mem_singleton]
                  intro hc
                  rcases hc with hc | hc
                  · exact absurd hc (by simp)
                  · simp only [List.not_mem_nil, or_false, SqEv.start.injEq] at hc
                    exact hit hc
                · simp only [List.mem_cons, List.mem_singleton]
                  intro hc
                  rcases hc with hc | hc
                  · simp only [SqEv.finish.injEq] at hc
                    exact hij hc.symm
                  · simp at hc
            · have hstepc : sqStep s (.complete j) = (s, []) := by
                simp [sqStep, hm]
              rw [hstepc]
              exact ⟨hq, hr, by simp, by simp⟩
        | abortCall =>
            rw [show sqStep s .abortCall =
                ({ s with queue := [], isProcessing := false }, []) from rfl]
            exact ⟨by simp, hr, by simp, by simp⟩
      have hrest := ih (sqStep s c).1 i hstep.1 hstep.2.1 hprest
      refine ⟨?_, ?_, ?_, ?_⟩
      · show i ∉ (runFrom (sqStep s c).1 rest).1.queue
        exact hrest.1
      · show i ∉ (runFrom (sqStep s c).1 rest).1.running
        exact hrest.2.1
      · show SqEv.start i ∉ (sqStep s c).2 ++ (runFrom (sqStep s c).1 rest).2
        intro hc
        rcases List.mem_append.mp hc with hc | hc
        · exact hstep.2.2.1 hc
        · exact hrest.2.2.1 hc
      · show SqEv.finish i ∉ (sqStep s c).2 ++ (runFrom (sqStep s c).1 rest).2
        intro hc
        rcases List.mem_append.mp hc with hc | hc
        · exact hstep.2.2.2 hc
        · exact hrest.2.2.2 hc

/-- Claim C8: Sequencer abort semantics — after `abort()` every queued but
not yet started item is discarded: the queue and the `isProcessing` flag
are cleared immediately, and over the whole run (any commands before the
abort, any commands after it, distinct push ids) the discarded item's
worker is never invoked and its `push` promise never settles — no `start`
and no `finish` event for it ever appears in the trace. -/
theorem syncQueue_abort_discards (cs1 cs2 : List SqCmd) (i : Nat)
    (hnd : (pushIds (cs1 ++ SqCmd.abortCall :: cs2)).Nodup)
    (hq : i ∈ (runSq cs1).1.queue) :
    ((sqStep (runSq cs1).1 SqCmd.abortCall).1.queue = [] ∧
      (sqStep (runSq cs1).1 SqCmd.abortCall).1.isProcessing = false) ∧
    SqEv.start i ∉ (runSq (cs1 ++ SqCmd.abortCall :: cs2)).2 ∧
    SqEv.finish i ∉ (runSq (cs1 ++ SqCmd.abortCall :: cs2)).2 := by
  have hsplit : pushIds (cs1 ++ SqCmd.abortCall :: cs2) =
      pushIds cs1 ++ pushIds cs2 := by
    rw [pushIds_append]
    rfl
  rw [hsplit] at hnd
  obtain ⟨hnd1, hnd2, hdisj⟩ := List.nodup_append.mp hnd
  obtain ⟨hA, hC, hB, hD, hE, hF⟩ := runSq_safety cs1 hnd1
  have hipush : i ∈ pushIds cs1 := hA i (Or.inl hq)
  have hpc2 : SqCmd.push i ∉ cs2 :=
    fun hc => hdisj hipush (mem_pushIds_of_push_mem hc)
  have hirun : i ∉ (runSq cs1).1.running := by
    intro hc
    exact (List.nodup_append.mp hF).2.2 hq hc
  have hstarti : SqEv.start i ∉ (runSq cs1).2 := hB i hq
  have hfini : SqEv.finish i ∉ (runSq cs1).2 :=
    fun hc => hstarti (hD i hc)
  have hstepA : sqStep (runSq cs1).1 SqCmd.abortCall =
      ({ (runSq cs1).1 with queue := [], isProcessing := false }, []) := rfl
  have havoid := runFrom_avoid cs2
    ({ (runSq cs1).1 with queue := [], isProcessing := false }) i
    (by simp) hirun hpc2
  have htr : (runSq (cs1 ++ SqCmd.abortCall :: cs2)).2 =
      (runSq cs1).2 ++
        (runFrom ({ (runSq cs1).1 with
          queue := [], isProcessing := false }) cs2).2 := by
    rw [runSq, runFrom_append]
    rfl
  refine ⟨⟨by rw [hstepA], by rw [hstepA]⟩, ?_, ?_⟩
  · rw [htr]
    intro hc
    rcases List.mem_append.mp hc with hc | hc
    · exact hstarti hc
    · exact havoid.2.2.1 hc
  · rw [htr]
    intro hc
    rcases List.mem_append.mp hc with hc | hc
    · exact hfini hc
    · exact havoid.2.2.2 hc

/-! ## Claim theorems for the deep-merge engine -/

theorem fastMerge_arr (base : JVal) (xs : JList) :
    fastMerge base (.arr xs) = .arr xs := by
  cases base <;> rfl

theorem resolveV_arr (bf : JFields) (k : String) (xs : JList) :
    resolveV bf k (.arr xs) = .arr xs := by
  unfold resolveV
  cases h : bf.lookup k with
  | none => rfl
  | some bv => exact fastMerge_arr bv xs

theorem resolveV_scalar (bf : JFields) (k : String) (v : JVal)
    (hv : isMergeableObject v = false) : resolveV bf k v = v := by
  unfold resolveV
  cases h : bf.lookup k with
  | none => rfl
  | some bv => exact fastMerge_nonmergeable bv v hv

/-- Claim C2: deep-merge array replacement — an array patch replaces the
base value wholesale (when the patch itself is an array, and when an array
sits at a key of a plain-object patch), never appending to or element-wise
merging with the base array; in particular merging `a:[1,2,3]` with
`a:[4]` yields `a:[4]`. -/
theorem fastMerge_array_replacement :
    (∀ (base : JVal) (xs : JList), fastMerge base (.arr xs) = .arr xs) ∧
    (∀ (bf pf : JFields) (k : String) (xs : JList),
      pf.uniqKeys = true → pf.lookup k = some (.arr xs) →
      (objectAssignFields (fastMerge (.obj bf) (.obj pf))).lookup k =
        some (.arr xs)) ∧
    fastMerge
      (.obj (.cons "a" (.arr (.cons (.numV 1) (.cons (.numV 2)
        (.cons (.numV 3) .nil)))) .nil))
      (.obj (.cons "a" (.arr (.cons (.numV 4) .nil)) .nil)) =
      .obj (.cons "a" (.arr (.cons (.numV 4) .nil)) .nil) := by
  refine ⟨fastMerge_arr, ?_, rfl⟩
  intro bf pf k xs hu hl
  show (mergeGo bf bf pf).lookup k = some (.arr xs)
  rw [mergeGo_lookup bf pf hu bf k, hl]
  dsimp only
  rw [resolveV_arr]

/-- Witness for C2: the in-object conjunct evaluated at a concrete base and
patch. -/
theorem fastMerge_array_replacement_witness :
    ((JFields.cons "a" (JVal.arr (.cons (.numV 4) .nil)) .nil).uniqKeys = true ∧
      (JFields.cons "a" (JVal.arr (.cons (.numV 4) .nil)) .nil).lookup "a" =
        some (.arr (.cons (.numV 4) .nil))) ∧
    (objectAssignFields (fastMerge
      (.obj (.cons "a" (JVal.arr (.cons (.numV 1) (.cons (.numV 2)
        (.cons (.numV 3) .nil)))) .nil))
      (.obj (.cons "a" (JVal.arr (.cons (.numV 4) .nil)) .nil)))).lookup "a" =
      some (.arr (.cons (.numV 4) .nil)) :=
  ⟨⟨rfl, rfl⟩,
    fastMerge_array_replacement.2.1 _ _ "a" _ rfl rfl⟩

/-- Claim C3: deep-merge recursive union — on plain objects with no array
values (well-formed as JS objects: distinct keys at every depth), the
merge equals the spec's recursive key union with the patch's leaves
winning and base-only keys preserved. -/
theorem fastMerge_recursive_union (a b : JVal)
    (_hpa : isPlainObj a = true) (_hpb : isPlainObj b = true)
    (_hfa : arrayFree a = true) (_hfb : arrayFree b = true)
    (ha : wfB a = true) (hb : wfB b = true) :
    fastMerge a b = mergeSpec a b :=
  fastMerge_eq_mergeSpec a b ha hb

/-- Witness for C3 at concrete nested objects. -/
theorem fastMerge_recursive_union_witness :
    (isPlainObj (JVal.obj (.cons "x" (.numV 1)
        (.cons "n" (.obj (.cons "p" (.numV 1) (.cons "q" (.numV 2) .nil))) .nil))) = true ∧
      isPlainObj (JVal.obj (.cons "n" (.obj (.cons "q" (.numV 3)
        (.cons "r" (.numV 4) .nil))) (.cons "y" (.numV 5) .nil))) = true ∧
      arrayFree (JVal.obj (.cons "x" (.numV 1)
        (.cons "n" (.obj (.cons "p" (.numV 1) (.cons "q" (.numV 2) .nil))) .nil))) = true ∧
      arrayFree (JVal.obj (.cons "n" (.obj (.cons "q" (.numV 3)
        (.cons "r" (.numV 4) .nil))) (.cons "y" (.numV 5) .nil))) = true ∧
      wfB (JVal.obj (.cons "x" (.numV 1)
        (.cons "n" (.obj (.cons "p" (.numV 1) (.cons "q" (.numV 2) .nil))) .nil))) = true ∧
      wfB (JVal.obj (.cons "n" (.obj (.cons "q" (.numV 3)
        (.cons "r" (.numV 4) .nil))) (.cons "y" (.numV 5) .nil))) = true) ∧
    fastMerge
      (JVal.obj (.cons "x" (.numV 1)
        (.cons "n" (.obj (.cons "p" (.numV 1) (.cons "q" (.numV 2) .nil))) .nil)))
      (JVal.obj (.cons "n" (.obj (.cons "q" (.numV 3)
        (.cons "r" (.numV 4) .nil))) (.cons "y" (.numV 5) .nil))) =
    mergeSpec
      (JVal.obj (.cons "x" (.numV 1)
        (.cons "n" (.obj (.cons "p" (.numV 1) (.cons "q" (.numV 2) .nil))) .nil)))
      (JVal.obj (.cons "n" (.obj (.cons "q" (.numV 3)
        (.cons "r" (.numV 4) .nil))) (.cons "y" (.numV 5) .nil))) :=
  ⟨⟨rfl, rfl, rfl, rfl, rfl, rfl⟩,
    fastMerge_recursive_union _ _ rfl rfl rfl rfl rfl rfl⟩

/-- Claim C9: `Date` and `RegExp` values are opaque scalars to the merge —
`isMergeableObject` rejects them, a date/regexp patch replaces the base
wholesale, and inside a plain-object patch a date/regexp value replaces the
base's value at that key and is never recursed into as a mapping. -/
theorem fastMerge_date_regexp_opaque :
    (∀ t, isMergeableObject (JVal.dateV t) = false) ∧
    (∀ p, isMergeableObject (JVal.regexpV p) = false) ∧
    (∀ (base : JVal) (t : Int), fastMerge base (.dateV t) = .dateV t) ∧
    (∀ (base : JVal) (p : String), fastMerge base (.regexpV p) = .regexpV p) ∧
    (∀ (bf pf : JFields) (k : String) (t : Int),
      pf.uniqKeys = true → pf.lookup k = some (.dateV t) →
      (objectAssignFields (fastMerge (.obj bf) (.obj pf))).lookup k =
        some (.dateV t)) ∧
    (∀ (bf pf : JFields) (k : String) (p : String),
      pf.uniqKeys = true → pf.lookup k = some (.regexpV p) →
      (objectAssignFields (fastMerge (.obj bf) (.obj pf))).lookup k =
        some (.regexpV p)) := by
  refine ⟨fun t => rfl, fun p => rfl, ?_, ?_, ?_, ?_⟩
  · intro base t
    exact fastMerge_nonmergeable base (.dateV t) rfl
  · intro base p
    exact fastMerge_nonmergeable base (.regexpV p) rfl
  · intro bf pf k t hu hl
    show (mergeGo bf bf pf).lookup k = some (.dateV t)
    rw [mergeGo_lookup bf pf hu bf k, hl]
    dsimp only
    rw [resolveV_scalar bf k (.dateV t) rfl]
  · intro bf pf k p hu hl
    show (mergeGo bf bf pf).lookup k = some (.regexpV p)
    rw [mergeGo_lookup bf pf hu bf k, hl]
    dsimp only
    rw [resolveV_scalar bf k (.regexpV p) rfl]

/-- Witness for C9 at a concrete base (whose value at the key is an object,
which a mergeable patch would have recursed into) and a date patch. -/
theorem fastMerge_date_regexp_opaque_witness :
    ((JFields.cons "d" (JVal.dateV 7) .nil).uniqKeys = true ∧
      (JFields.cons "d" (JVal.dateV 7) .nil).lookup "d" = some (.dateV 7)) ∧
    (objectAssignFields (fastMerge
      (.obj (.cons "d" (.obj (.cons "x" (.numV 1) .nil)) .nil))
      (.obj (.cons "d" (JVal.dateV 7) .nil)))).lookup "d" = some (.dateV 7) :=
  ⟨⟨rfl, rfl⟩,
    fastMerge_date_regexp_opaque.2.2.2.2.1 _ _ "d" 7 rfl rfl⟩

/-! ## Claim theorems for the cache -/

/-- Claim C4: pending-task deduplication — along every sequence of
capture/settle events, at most one pending record exists per task name, and
once the promise underlying a captured task settles (fulfilled or
rejected alike, via the guaranteed-run `finally` cleanup) no record remains
under that task name. -/
theorem captureTask_dedup_cleanup (evs : List TaskEvent) (n : String)
    (p : Nat) (ok : Bool) :
    recordKeysUnique (runTasks evs).pending = true ∧
    (TaskEvent.capture n p ∈ evs →
      ((taskStep (runTasks evs) (.settle p ok)).pending.lookup n) = none) := by
  constructor
  · exact runTasks_pending_unique_from evs taskInit rfl
  · intro hcap
    exact settle_clears_name (runTasks evs) n p ok
      (capture_registers_finalizer evs n p taskInit hcap)

/-- Witness for C4: one capture of task "get:k", then its promise settles. -/
theorem captureTask_dedup_cleanup_witness :
    recordKeysUnique (runTasks [TaskEvent.capture "get:k" 1]).pending = true ∧
    ((taskStep (runTasks [TaskEvent.capture "get:k" 1])
      (.settle 1 false)).pending.lookup "get:k") = none :=
  ⟨(captureTask_dedup_cleanup [TaskEvent.capture "get:k" 1] "get:k" 1 false).1,
    (captureTask_dedup_cleanup [TaskEvent.capture "get:k" 1] "get:k" 1 false).2
      (by simp)⟩

/-- Counterexample to claim C5 as stated: a `Date` patch is not a plain
mapping, yet `OnyxCache.merge` does not throw — the validation is
`!_.isObject(data) || _.isArray(data)`, and underscore's `isObject` accepts
any non-null object, `Date` included. -/
theorem cacheMerge_date_no_throw :
    isPlainObj (JVal.dateV 0) = false ∧
    underscoreIsObject (JVal.dateV 0) = true ∧
    cacheMerge emptyCache (JVal.dateV 0) = Except.ok emptyCache :=
  ⟨rfl, rfl, rfl⟩

/-- Claim C5 (amended): `OnyxCache.merge` throws its invalid-argument error
exactly when the patch is `null`, a primitive, or an array — non-plain
objects such as `Date`/`RegExp` pass the `_.isObject` check and do not
throw.  The throw happens synchronously before any assignment, so an
erroneous call leaves the whole cache state (value map, known keys,
recently-used order) exactly as it was: in this pure model the error result
carries no new state. -/
theorem cacheMerge_validation (c : OnyxCache) (data : JVal) :
    cacheMerge c data = Except.error cacheMergeErrMsg ↔
      (underscoreIsObject data = false ∨ jsIsArray data = true) := by
  unfold cacheMerge
  by_cases h : (!underscoreIsObject data || jsIsArray data) = true
  · rw [if_pos h]
    simp only [Bool.or_eq_true, Bool.not_eq_true'] at h
    simp [h]
  · rw [if_neg h]
    simp only [Bool.or_eq_true, Bool.not_eq_true'] at h
    constructor
    · intro hc
      exact absurd hc (by simp)
    · intro hc
      exact absurd hc h

/-- The recently-used bookkeeping of `merge` touches neither the value map
nor the known keys. -/
theorem foldl_access_storage (ks : List String) :
    ∀ c : OnyxCache, (ks.foldl addToAccessedKeys c).storageMap = c.storageMap ∧
      (ks.foldl addToAccessedKeys c).storageKeys = c.storageKeys := by
  induction ks with
  | nil => intro c; exact ⟨rfl, rfl⟩
  | cons x rest ih =>
      intro c
      rw [List.foldl_cons]
      exact ih _

theorem resolveV_null (bf : JFields) (k : String) :
    resolveV bf k .null = .null := resolveV_scalar bf k .null rfl

/-- Claim C10: null is not a tombstone in the in-memory cache — merging a
patch that maps `k` to `null` stores `null` as `k`'s cached value instead
of deleting the entry: afterwards the stored value is `null`,
`hasCacheForKey` answers true and `getValue` returns `null`.  (The
null-as-deletion semantics of the spec applies at the persisted layer,
which is outside the cache.) -/
theorem cacheMerge_null_cached (c : OnyxCache) (k : String) (c' : OnyxCache)
    (h : cacheMerge c (.obj (.cons k .null .nil)) = Except.ok c') :
    c'.storageMap.lookup k = some .null ∧
    hasCacheForKey c' k = true ∧
    (getValue c' k).2 = some .null := by
  unfold cacheMerge at h
  rw [if_neg (by simp [underscoreIsObject, jsIsArray])] at h
  have hc' := Except.ok.inj h
  have hmap : c'.storageMap = mergeGo c.storageMap c.storageMap
      (.cons k .null .nil) := by
    rw [← hc']
    exact (foldl_access_storage _ _).1
  have hlook : c'.storageMap.lookup k = some .null := by
    rw [hmap, mergeGo_lookup c.storageMap (.cons k .null .nil) rfl c.storageMap k]
    simp [JFields.lookup, resolveV_null]
  refine ⟨hlook, ?_, ?_⟩
  · rw [hasCacheForKey, hlook]
    rfl
  · show c'.storageMap.lookup k = some .null
    exact hlook

/-- Witness for C10: merging `k ↦ null` into a cache that held a value at
`k`. -/
theorem cacheMerge_null_cached_witness :
    cacheMerge (cacheSet emptyCache "k" (.numV 9)).1
        (.obj (.cons "k" .null .nil)) =
      Except.ok ((cacheMerge (cacheSet emptyCache "k" (.numV 9)).1
        (.obj (.cons "k" .null .nil))).toOption.getD emptyCache) ∧
    (((cacheMerge (cacheSet emptyCache "k" (.numV 9)).1
        (.obj (.cons "k" .null .nil))).toOption.getD
          emptyCache).storageMap.lookup "k" = some .null ∧
      hasCacheForKey ((cacheMerge (cacheSet emptyCache "k" (.numV 9)).1
        (.obj (.cons "k" .null .nil))).toOption.getD emptyCache) "k" = true ∧
      (getValue ((cacheMerge (cacheSet emptyCache "k" (.numV 9)).1
        (.obj (.cons "k" .null .nil))).toOption.getD emptyCache) "k").2 =
        some .null) :=
  ⟨rfl, cacheMerge_null_cached (cacheSet emptyCache "k" (.numV 9)).1 "k" _ rfl⟩

/-- A cache reached by configuring a recent-keys limit of 0 (also the
constructor default) and inserting "a" then "b" through `set`. -/
def lruZeroLimitCache : OnyxCache :=
  (cacheSet (cacheSet (setRecentKeysLimit emptyCache 0) "a" (.numV 1)).1
    "b" (.numV 2)).1

/-- Counterexample to claim C6 as stated: with the configured maximum 0,
more keys (two) than the maximum have been inserted and "b" was touched
last, yet `removeLeastRecentlyUsedKeys` evicts nothing — JS `slice(-0)` is
`slice(0)`, the whole array — so the least-recently-touched key "a" keeps
its cache entry. -/
theorem removeLRU_zero_limit_no_eviction :
    lruZeroLimitCache.maxRecentKeysSize = 0 ∧
    lruZeroLimitCache.maxRecentKeysSize < lruZeroLimitCache.recentKeys.length ∧
    lruZeroLimitCache.recentKeys.getLast? = some "b" ∧
    lruZeroLimitCache.recentKeys.head? = some "a" ∧
    removeLeastRecentlyUsedKeys lruZeroLimitCache = lruZeroLimitCache ∧
    (removeLeastRecentlyUsedKeys lruZeroLimitCache).storageMap.lookup "a" =
      some (.numV 1) :=
  ⟨rfl, by decide, rfl, rfl, rfl, rfl⟩

theorem foldl_drop_lookup (ks : List String) :
    ∀ (c : OnyxCache) (k : String),
      (ks.foldl drop c).storageMap.lookup k =
        if ks.contains k then none else c.storageMap.lookup k := by
  induction ks with
  | nil => intro c k; simp
  | cons k0 rest ih =>
      intro c k
      rw [List.foldl_cons, ih]
      have hcons : ((k0 :: rest).contains k) = ((k == k0) || rest.contains k) := rfl
      by_cases he : k0 = k
      · subst he
        have hbeq : (k0 == k0) = true := by simp
        rw [hcons, hbeq, Bool.true_or, if_pos rfl]
        by_cases hr : rest.contains k0 = true
        · rw [if_pos hr]
        · rw [if_neg hr]
          show (c.storageMap.eraseKey k0).lookup k0 = none
          exact JFields.lookup_eraseKey_self _ _
      · have hbeq : (k == k0) = false := by
          simp only [beq_eq_false_iff_ne]
          exact fun hh => he hh.symm
        rw [hcons, hbeq, Bool.false_or]
        rw [show (drop c k0).storageMap.lookup k = c.storageMap.lookup k from
          JFields.lookup_eraseKey_ne _ _ _ (fun hh => he hh.symm)]

/-- Claim C6 (amended): provided the configured maximum is at least one
(with a limit of zero the negative slice takes the whole recent-keys array
and nothing is ever evicted — see the counterexample), when more keys than
the maximum are tracked, eviction drops the least-recently-touched key's
cache entry while the last-touched key's entry survives untouched; and when
the recently-used set does not exceed the maximum, nothing is dropped. -/
theorem removeLRU_evicts_lru_keeps_mru (c : OnyxCache) (lru K : String)
    (hmax : 1 ≤ c.maxRecentKeysSize)
    (hover : c.maxRecentKeysSize < c.recentKeys.length)
    (hnodup : c.recentKeys.Nodup)
    (hhead : c.recentKeys.head? = some lru)
    (hlast : c.recentKeys.getLast? = some K)
    (hentry : (c.storageMap.lookup lru).isSome = true) :
    (removeLeastRecentlyUsedKeys c).storageMap.lookup lru = none ∧
    (removeLeastRecentlyUsedKeys c).storageMap.lookup K =
      c.storageMap.lookup K ∧
    (∀ c' : OnyxCache, c'.recentKeys.length ≤ c'.maxRecentKeysSize →
      removeLeastRecentlyUsedKeys c' = c') := by
  have hnle : ¬ (c.recentKeys.length ≤ c.maxRecentKeysSize) := by omega
  have hm0 : c.maxRecentKeysSize ≠ 0 := by omega
  have hslice : jsSliceLast c.recentKeys c.maxRecentKeysSize =
      c.recentKeys.drop (c.recentKeys.length - c.maxRecentKeysSize) := by
    rw [jsSliceLast, if_neg hm0]
  obtain ⟨tail, htail⟩ : ∃ tail, c.recentKeys = lru :: tail := by
    cases hl : c.recentKeys with
    | nil => rw [hl] at hhead; simp at hhead
    | cons x t =>
        rw [hl] at hhead
        simp only [List.head?_cons, Option.some.injEq] at hhead
        exact ⟨t, by rw [hhead]⟩
  obtain ⟨j, hj⟩ : ∃ j, c.recentKeys.length - c.maxRecentKeysSize = j + 1 :=
    ⟨c.recentKeys.length - c.maxRecentKeysSize - 1, by omega⟩
  have hlrunotin : lru ∉ jsSliceLast c.recentKeys c.maxRecentKeysSize := by
    rw [hslice, hj, htail, List.drop_succ_cons]
    intro hc
    have hlru_tail : lru ∈ tail := (List.drop_sublist _ _).subset hc
    rw [htail] at hnodup
    exact (List.nodup_cons.mp hnodup).1 hlru_tail
  have hKin : K ∈ jsSliceLast c.recentKeys c.maxRecentKeysSize := by
    rw [hslice]
    have hdropne : c.recentKeys.drop
        (c.recentKeys.length - c.maxRecentKeysSize) ≠ [] := by
      intro hc
      have := congrArg List.length hc
      rw [List.length_drop] at this
      simp at this
      omega
    have hsplit := List.take_append_drop
      (c.recentKeys.length - c.maxRecentKeysSize) c.recentKeys
    have hlast2 : (c.recentKeys.take (c.recentKeys.length - c.maxRecentKeysSize)
        ++ c.recentKeys.drop (c.recentKeys.length - c.maxRecentKeysSize)).getLast?
        = some K := by
      rw [hsplit]
      exact hlast
    rw [List.getLast?_append_of_ne_nil _ hdropne] at hlast2
    exact List.mem_of_mem_getLast? hlast2
  have hstep : removeLeastRecentlyUsedKeys c =
      ((c.storageMap.keys.filter (fun k =>
        !((jsSliceLast c.recentKeys c.maxRecentKeysSize).contains k))).foldl
          drop c) := by
    rw [removeLeastRecentlyUsedKeys, if_neg hnle]
  have hlrumem : lru ∈ c.storageMap.keys.filter (fun k =>
      !((jsSliceLast c.recentKeys c.maxRecentKeysSize).contains k)) := by
    rw [List.mem_filter]
    constructor
    · rw [JFields.mem_keys_iff_hasKey, JFields.hasKey_eq_isSome_lookup]
      exact hentry
    · simp only [Bool.not_eq_true']
      cases hcc : (jsSliceLast c.recentKeys c.maxRecentKeysSize).contains lru with
      | false => rfl
      | true =>
          exact absurd (by simpa using hcc) hlrunotin
  have hKnot : K ∉ c.storageMap.keys.filter (fun k =>
      !((jsSliceLast c.recentKeys c.maxRecentKeysSize).contains k)) := by
    intro hc
    have := (List.mem_filter.mp hc).2
    simp only [Bool.not_eq_true'] at this
    rw [(by simpa using List.elem_eq_true_of_mem hKin :
      (jsSliceLast c.recentKeys c.maxRecentKeysSize).contains K = true)] at this
    exact absurd this (by simp)
  refine ⟨?_, ?_, ?_⟩
  · rw [hstep, foldl_drop_lookup]
    have hcc : (c.storageMap.keys.filter (fun k =>
        !((jsSliceLast c.recentKeys c.maxRecentKeysSize).contains k))).contains lru
        = true := List.elem_eq_true_of_mem hlrumem
    rw [hcc, if_pos rfl]
  · rw [hstep, foldl_drop_lookup]
    have hcc : (c.storageMap.keys.filter (fun k =>
        !((jsSliceLast c.recentKeys c.maxRecentKeysSize).contains k))).contains K
        = false := by
      cases hx : (c.storageMap.keys.filter (fun k =>
          !((jsSliceLast c.recentKeys c.maxRecentKeysSize).contains k))).contains K with
      | false => rfl
      | true => exact absurd (by simpa using hx) hKnot
    rw [hcc]
    rw [if_neg (by simp)]
  · intro c' hle
    rw [removeLeastRecentlyUsedKeys, if_pos hle]

/-- Witness for the amended C6: limit 1, keys "a" then "b" inserted, "b"
touched last; eviction drops "a" and keeps "b". -/
theorem removeLRU_evicts_lru_keeps_mru_witness :
    ((removeLeastRecentlyUsedKeys
        (cacheSet (cacheSet (setRecentKeysLimit emptyCache 1) "a" (.numV 1)).1
          "b" (.numV 2)).1).storageMap.lookup "a" = none ∧
      (removeLeastRecentlyUsedKeys
        (cacheSet (cacheSet (setRecentKeysLimit emptyCache 1) "a" (.numV 1)).1
          "b" (.numV 2)).1).storageMap.lookup "b" =
        ((cacheSet (cacheSet (setRecentKeysLimit emptyCache 1) "a" (.numV 1)).1
          "b" (.numV 2)).1).storageMap.lookup "b" ∧
      (∀ c' : OnyxCache, c'.recentKeys.length ≤ c'.maxRecentKeysSize →
        removeLeastRecentlyUsedKeys c' = c')) :=
  removeLRU_evicts_lru_keeps_mru _ "a" "b" (by decide) (by decide) (by decide)
    rfl rfl rfl

/-- Executable form of the known-keys invariant: every key of the value map
is among the known storage keys. -/
def invKnownB (c : OnyxCache) : Bool :=
  (c.storageMap.keys).all (fun k => c.storageKeys.contains k)

theorem invKnownB_iff (c : OnyxCache) :
    invKnownB c = true ↔
      ∀ k, c.storageMap.hasKey k = true → k ∈ c.storageKeys := by
  rw [invKnownB, List.all_eq_true]
  constructor
  · intro h k hk
    have hx := h k ((JFields.mem_keys_iff_hasKey _ _).mpr hk)
    simpa using hx
  · intro h k hk
    have hx := h k ((JFields.mem_keys_iff_hasKey _ _).mp hk)
    simpa using hx

theorem mem_setAdd (s : List String) (k k' : String) :
    k' ∈ setAdd s k ↔ (k' ∈ s ∨ k' = k) := by
  unfold setAdd
  by_cases h : s.contains k = true
  · rw [if_pos h]
    have hk : k ∈ s := by simpa using h
    constructor
    · exact Or.inl
    · rintro (hh | hh)
      · exact hh
      · rw [hh]; exact hk
  · rw [if_neg h]
    simp

theorem mem_foldl_setAdd (l : List String) :
    ∀ (acc : List String) (k : String),
      k ∈ l.foldl setAdd acc ↔ (k ∈ acc ∨ k ∈ l) := by
  induction l with
  | nil => intro acc k; simp
  | cons x rest ih =>
      intro acc k
      rw [List.foldl_cons, ih, mem_setAdd]
      simp only [List.mem_cons]
      tauto

theorem mem_dedupKeys (l : List String) (k : String) :
    k ∈ dedupKeys l ↔ k ∈ l := by
  rw [dedupKeys, mem_foldl_setAdd]
  simp

theorem invKnown_drop_one (c : OnyxCache) (k : String)
    (h : ∀ k', c.storageMap.hasKey k' = true → k' ∈ c.storageKeys) :
    ∀ k', (drop c k).storageMap.hasKey k' = true →
      k' ∈ (drop c k).storageKeys := by
  intro k' hk'
  show k' ∈ c.storageKeys.filter (fun x => x != k)
  by_cases he : k' = k
  · subst he
    rw [show (drop c k').storageMap = c.storageMap.eraseKey k' from rfl,
      JFields.hasKey_eq_isSome_lookup, JFields.lookup_eraseKey_self] at hk'
    simp at hk'
  · rw [show (drop c k).storageMap = c.storageMap.eraseKey k from rfl,
      JFields.hasKey_eq_isSome_lookup, JFields.lookup_eraseKey_ne _ _ _ he,
      ← JFields.hasKey_eq_isSome_lookup] at hk'
    rw [List.mem_filter]
    refine ⟨h k' hk', ?_⟩
    simp [he]

theorem invKnown_foldl_drop (ks : List String) :
    ∀ c : OnyxCache,
      (∀ k', c.storageMap.hasKey k' = true → k' ∈ c.storageKeys) →
      ∀ k', (ks.foldl drop c).storageMap.hasKey k' = true →
        k' ∈ (ks.foldl drop c).storageKeys := by
  induction ks with
  | nil => intro c h; exact h
  | cons k0 rest ih =>
      intro c h
      rw [List.foldl_cons]
      exact ih (drop c k0) (invKnown_drop_one c k0 h)

/-- Claim C7: known-keys invariant — `set`, `drop`, `getValue`,
`captureTask`, `removeLeastRecentlyUsedKeys`, and `merge` when it succeeds,
all preserve the invariant that every key holding an entry in the cache's
value map is also a member of the known storage-keys set. -/
theorem cache_known_keys_invariant (c : OnyxCache)
    (h : invKnownB c = true) (k n : String) (v d : JVal) (p : Nat) :
    invKnownB (cacheSet c k v).1 = true ∧
    invKnownB (drop c k) = true ∧
    invKnownB (getValue c k).1 = true ∧
    invKnownB (captureTask c n p) = true ∧
    invKnownB (removeLeastRecentlyUsedKeys c) = true ∧
    (∀ c', cacheMerge c d = Except.ok c' → invKnownB c' = true) := by
  rw [invKnownB_iff] at h
  refine ⟨?_, ?_, ?_, ?_, ?_, ?_⟩
  · rw [invKnownB_iff]
    intro k' hk'
    have hm : (cacheSet c k v).1.storageMap = c.storageMap.set k v := rfl
    have hs : (cacheSet c k v).1.storageKeys = setAdd c.storageKeys k := rfl
    rw [hm, JFields.hasKey_set] at hk'
    rw [hs, mem_setAdd]
    simp only [Bool.or_eq_true, beq_iff_eq] at hk'
    rcases hk' with hx | hx
    · exact Or.inl (h k' hx)
    · exact Or.inr hx.symm
  · rw [invKnownB_iff]
    exact invKnown_drop_one c k h
  · rw [invKnownB_iff]
    intro k' hk'
    exact h k' hk'
  · rw [invKnownB_iff]
    intro k' hk'
    exact h k' hk'
  · rw [invKnownB_iff]
    unfold removeLeastRecentlyUsedKeys
    by_cases hle : c.recentKeys.length ≤ c.maxRecentKeysSize
    · rw [if_pos hle]
      exact h
    · rw [if_neg hle]
      exact invKnown_foldl_drop _ c h
  · intro c' hc'
    cases d with
    | null =>
        rw [show cacheMerge c .null = Except.error cacheMergeErrMsg from rfl] at hc'
        exact absurd hc' (by simp)
    | boolV b =>
        rw [show cacheMerge c (.boolV b) = Except.error cacheMergeErrMsg
          from rfl] at hc'
        exact absurd hc' (by simp)
    | numV m =>
        rw [show cacheMerge c (.numV m) = Except.error cacheMergeErrMsg
          from rfl] at hc'
        exact absurd hc' (by simp)
    | strV s =>
        rw [show cacheMerge c (.strV s) = Except.error cacheMergeErrMsg
          from rfl] at hc'
        exact absurd hc' (by simp)
    | arr xs =>
        rw [show cacheMerge c (.arr xs) = Except.error cacheMergeErrMsg
          from rfl] at hc'
        exact absurd hc' (by simp)
    | dateV t =>
        have hstep : cacheMerge c (.dateV t) = Except.ok
            { c with
              storageMap := .nil,
              storageKeys := dedupKeys (getAllKeys c ++ []) } := rfl
        rw [hstep] at hc'
        rw [← Except.ok.inj hc']
        rfl
    | regexpV q =>
        have hstep : cacheMerge c (.regexpV q) = Except.ok
            { c with
              storageMap := .nil,
              storageKeys := dedupKeys (getAllKeys c ++ []) } := rfl
        rw [hstep] at hc'
        rw [← Except.ok.inj hc']
        rfl
    | obj df =>
        have hstep : cacheMerge c (.obj df) = Except.ok
            ((df.keys).foldl addToAccessedKeys
              { c with
                storageMap :=
                  objectAssignFields (fastMerge (.obj c.storageMap) (.obj df)),
                storageKeys := dedupKeys (getAllKeys c ++ df.keys) }) := rfl
        rw [hstep] at hc'
        have hc'' := Except.ok.inj hc'
        have hm : ((df.keys).foldl addToAccessedKeys
            { c with
              storageMap :=
                objectAssignFields (fastMerge (.obj c.storageMap) (.obj df)),
              storageKeys := dedupKeys (getAllKeys c ++ df.keys) }).storageMap =
            objectAssignFields (fastMerge (.obj c.storageMap) (.obj df)) :=
          (foldl_access_storage _ _).1
        have hs : ((df.keys).foldl addToAccessedKeys
            { c with
              storageMap :=
                objectAssignFields (fastMerge (.obj c.storageMap) (.obj df)),
              storageKeys := dedupKeys (getAllKeys c ++ df.keys) }).storageKeys =
            dedupKeys (getAllKeys c ++ df.keys) :=
          (foldl_access_storage _ _).2
        rw [invKnownB_iff, ← hc'']
        intro k' hk'
        rw [hm] at hk'
        rw [hs, mem_dedupKeys]
        rcases hasKey_mergeGo c.storageMap df c.storageMap k' hk' with hx | hx
        · exact List.mem_append_left _ (h k' hx)
        · exact List.mem_append_right _ ((JFields.mem_keys_iff_hasKey _ _).mpr hx)

/-- Witness for C7: the empty cache satisfies the invariant and all
operations preserve it at concrete arguments. -/
theorem cache_known_keys_invariant_witness :
    invKnownB (cacheSet emptyCache "a" (.numV 1)).1 = true ∧
    invKnownB (drop emptyCache "a") = true ∧
    invKnownB (getValue emptyCache "a").1 = true ∧
    invKnownB (captureTask emptyCache "t" 0) = true ∧
    invKnownB (removeLeastRecentlyUsedKeys emptyCache) = true ∧
    (∀ c', cacheMerge emptyCache (.obj (.cons "b" .null .nil)) = Except.ok c' →
      invKnownB c' = true) :=
  cache_known_keys_invariant emptyCache rfl "a" "t" (.numV 1)
    (.obj (.cons "b" .null .nil)) 0

/-- Witness for C1: push 0, push 1, then worker 0 settles; the trace is
`start 0, finish 0, start 1` and `finish 0` precedes `start 1`. -/
theorem syncQueue_strict_ordering_witness :
    [SqEv.finish 0, SqEv.start 1].Sublist
      (runSq [SqCmd.push 0, SqCmd.push 1, SqCmd.complete 0]).2 :=
  syncQueue_strict_ordering [SqCmd.push 0, SqCmd.push 1, SqCmd.complete 0] 0 1
    (by decide) (by decide) (by decide) (by decide)

/-- Witness for C8: push 0 (starts), push 1 (queued), abort; item 1 is
discarded — queue and flag cleared, no `start 1`/`finish 1` ever. -/
theorem syncQueue_abort_discards_witness :
    ((sqStep (runSq [SqCmd.push 0, SqCmd.push 1]).1 SqCmd.abortCall).1.queue = [] ∧
      (sqStep (runSq [SqCmd.push 0, SqCmd.push 1]).1
        SqCmd.abortCall).1.isProcessing = false) ∧
    SqEv.start 1 ∉
      (runSq ([SqCmd.push 0, SqCmd.push 1] ++ SqCmd.abortCall :: [])).2 ∧
    SqEv.finish 1 ∉
      (runSq ([SqCmd.push 0, SqCmd.push 1] ++ SqCmd.abortCall :: [])).2 :=
  syncQueue_abort_discards [SqCmd.push 0, SqCmd.push 1] [] 1
    (by decide) (by decide)

end Onyx
